import Mathlib

/-!
Verification of the incidence-list construction and depth-first search of
`src/main.rs` (repository `basic-graph-and-network`).

The Rust code is shallowly embedded: `Vec<usize>` becomes `List Nat`
(reads are `List.getD · 0`, in-place writes are `List.set`, both agreeing
with the Rust indexing on the in-bounds accesses the code performs on
consistent inputs), the descending `for` loop of the builder becomes a
structural recursion on the loop counter, and the recursive DFS becomes a
fuel-indexed recursion (the fuel `n` is proven sufficient: see the
fuel-stability theorem for claim C7).
-/

/-- Edge list of a directed graph: `tail a` / `head a` are the endpoints of
edge `a`; index 0 is an unused dummy slot, valid edge ids are `1..=m`. -/
structure EdgeList where
  tail : List Nat
  head : List Nat

/-- Incidence-list representation produced by the builder: per-vertex heads
of the forward/reverse chains plus per-edge next links, 0 the sentinel. -/
structure DirectedGraph where
  edge_first : List Nat
  edge_next : List Nat
  rev_edge_first : List Nat
  rev_edge_next : List Nat

/-- DFS output: discovery order and finish order per vertex, 0 if unreached. -/
structure DfsTime where
  pre_label : List Nat
  post_label : List Nat

/-- One iteration of the builder's loop body for edge id `a`: prepend `a` to
the forward chain of `tail a` and to the reverse chain of `head a`. -/
def buildStep (g : EdgeList) (a : Nat) (st : DirectedGraph) : DirectedGraph :=
  { edge_first := st.edge_first.set (g.tail.getD a 0) a
    edge_next := st.edge_next.set a (st.edge_first.getD (g.tail.getD a 0) 0)
    rev_edge_first := st.rev_edge_first.set (g.head.getD a 0) a
    rev_edge_next := st.rev_edge_next.set a (st.rev_edge_first.getD (g.head.getD a 0) 0) }

/-- The builder's loop `for a in (1..=m).rev()`: `buildLoop g c st` performs
the iterations for `a = c, c-1, ..., 1`. -/
def buildLoop (g : EdgeList) : Nat → DirectedGraph → DirectedGraph
  | 0, st => st
  | c + 1, st => buildLoop g c (buildStep g (c + 1) st)

/-- Embedding of `dicomp_incidence_list_construct` from `src/main.rs`:
all four arrays start as zeros (`vec![0; n+1]` / `vec![0; m+1]`) and the
edges are inserted in descending id order. -/
def dicomp_incidence_list_construct (g : EdgeList) (n m : Nat) : DirectedGraph :=
  buildLoop g m
    { edge_first := List.replicate (n + 1) 0
      edge_next := List.replicate (m + 1) 0
      rev_edge_first := List.replicate (n + 1) 0
      rev_edge_next := List.replicate (m + 1) 0 }

/-- Walk a chain of edge ids: start at `a`, follow `next` until the sentinel
0, collecting the ids visited. The walk is fuel-indexed; the theorems show
any fuel of at least `m` reproduces the full walk of the Rust code. -/
def chainList (next : List Nat) : Nat → Nat → List Nat
  | 0, _ => []
  | fuel + 1, a => if a = 0 then [] else a :: chainList next fuel (next.getD a 0)

/-- Smallest index `b` with `lo ≤ b ≤ m` and `t.getD b 0 = v`, else 0.
Closed form of the chain heads produced by the descending-order builder. -/
def firstIdx (t : List Nat) (m : Nat) (lo : Nat) (v : Nat) : Nat :=
  if h : lo ≤ m then
    if t.getD lo 0 = v then lo else firstIdx t m (lo + 1) v
  else 0
termination_by m + 1 - lo
decreasing_by omega

/-- Consistency of an edge list with declared counts `n`, `m`: array lengths
are `m+1` and every endpoint of an edge `1..=m` is a vertex in `1..=n`. -/
def Consistent (g : EdgeList) (n m : Nat) : Prop :=
  g.tail.length = m + 1 ∧ g.head.length = m + 1 ∧
    (∀ a ∈ Finset.Icc 1 m, 1 ≤ g.tail.getD a 0 ∧ g.tail.getD a 0 ≤ n) ∧
    (∀ a ∈ Finset.Icc 1 m, 1 ≤ g.head.getD a 0 ∧ g.head.getD a 0 ≤ n)

instance (g : EdgeList) (n m : Nat) : Decidable (Consistent g n m) := by
  unfold Consistent
  infer_instance

/-- Mutable state threaded through the recursive DFS helper `go` of
`src/main.rs`: the two label arrays and the two counters `k`, `j`. -/
structure DfsState where
  pre_label : List Nat
  post_label : List Nat
  k : Nat
  j : Nat

/-- The out-edge chain of vertex `v` materialised as a list, exactly the
sequence of edge ids the Rust `while a != 0` loop walks. The fuel
`edge_next.length` (which is `m+1` for a built graph) covers the whole
walk, since built chains are strictly ascending. -/
def outEdges (dg : DirectedGraph) (v : Nat) : List Nat :=
  chainList dg.edge_next dg.edge_next.length (dg.edge_first.getD v 0)

mutual

/-- Embedding of the recursive helper `go` of `dfs`: label `v` with the
pre-order counter, walk the out-edge chain of `v` (see `goList`), then
label `v` with the post-order counter. The extra `fuel` bounds the
recursion depth; `dfs` passes `n`, which the C7 theorem shows suffices. -/
def go (g : EdgeList) (dg : DirectedGraph) : Nat → Nat → DfsState → DfsState
  | 0, _, st => st
  | fuel + 1, v, st =>
    let st1 : DfsState :=
      { st with pre_label := st.pre_label.set v st.k, k := st.k + 1 }
    let st2 := goList g dg fuel (outEdges dg v) st1
    { st2 with post_label := st2.post_label.set v st2.j, j := st2.j + 1 }
termination_by fuel _ _ => (fuel, 0)

/-- The `while a != 0` loop of `go`: for each edge `a` of the chain, recurse
into `head a` when it is still unlabelled. -/
def goList (g : EdgeList) (dg : DirectedGraph) (fuel : Nat) :
    List Nat → DfsState → DfsState
  | [], st => st
  | a :: rest, st =>
    let w := g.head.getD a 0
    let st1 := if st.pre_label.getD w 0 = 0 then go g dg fuel w st else st
    goList g dg fuel rest st1
termination_by l _ => (fuel, l.length + 1)

end

/-- Embedding of `dfs` from `src/main.rs`: zero-initialise both label
arrays (`vec![0; n+1]`), set both counters to 1, run `go` from `v`. -/
def dfs (g : EdgeList) (dg : DirectedGraph) (n v : Nat) : DfsTime :=
  let st := go g dg n v
    { pre_label := List.replicate (n + 1) 0
      post_label := List.replicate (n + 1) 0
      k := 1
      j := 1 }
  { pre_label := st.pre_label, post_label := st.post_label }

lemma getD_set_self (l : List Nat) (i x : Nat) (h : i < l.length) :
    (l.set i x).getD i 0 = x := by
  induction l generalizing i with
  | nil => simp at h
  | cons a l ih =>
    cases i with
    | zero => rfl
    | succ i => exact ih i (by simpa using h)

lemma getD_set_ne (l : List Nat) (i k x : Nat) (h : k ≠ i) :
    (l.set i x).getD k 0 = l.getD k 0 := by
  induction l generalizing i k with
  | nil => rfl
  | cons a l ih =>
    cases i with
    | zero =>
      cases k with
      | zero => exact absurd rfl h
      | succ k => rfl
    | succ i =>
      cases k with
      | zero => rfl
      | succ k => exact ih i k (by omega)

lemma getD_replicate (c k : Nat) : (List.replicate c 0).getD k 0 = 0 := by
  induction c generalizing k with
  | zero => rfl
  | succ c ih =>
    cases k with
    | zero => rfl
    | succ k => exact ih k

lemma firstIdx_of_gt (t : List Nat) (m lo v : Nat) (h : m < lo) :
    firstIdx t m lo v = 0 := by
  unfold firstIdx
  simp [Nat.not_le.mpr h]

lemma firstIdx_of_hit (t : List Nat) (m lo v : Nat) (h1 : lo ≤ m)
    (h2 : t.getD lo 0 = v) : firstIdx t m lo v = lo := by
  unfold firstIdx
  rw [dif_pos h1, if_pos h2]

lemma firstIdx_of_miss (t : List Nat) (m lo v : Nat) (h1 : lo ≤ m)
    (h2 : t.getD lo 0 ≠ v) : firstIdx t m lo v = firstIdx t m (lo + 1) v := by
  conv_lhs => unfold firstIdx
  rw [dif_pos h1, if_neg h2]

lemma chainList_zero (next : List Nat) (fuel : Nat) :
    chainList next fuel 0 = [] := by
  cases fuel <;> simp [chainList]

/-- Loop invariant of the builder: after the iterations for edge ids
`m, m-1, ..., c+1` have run, each chain head is the smallest edge id in
`(c, m]` with the matching endpoint, and each next link of an already
processed edge `a` is the smallest matching edge id above `a`. -/
structure BuildInv (g : EdgeList) (n m c : Nat) (st : DirectedGraph) : Prop where
  len_ef : st.edge_first.length = n + 1
  len_en : st.edge_next.length = m + 1
  len_rf : st.rev_edge_first.length = n + 1
  len_rn : st.rev_edge_next.length = m + 1
  ef : ∀ v, st.edge_first.getD v 0 = firstIdx g.tail m (c + 1) v
  en : ∀ a, st.edge_next.getD a 0 =
      if c + 1 ≤ a ∧ a ≤ m then firstIdx g.tail m (a + 1) (g.tail.getD a 0) else 0
  rf : ∀ v, st.rev_edge_first.getD v 0 = firstIdx g.head m (c + 1) v
  rn : ∀ a, st.rev_edge_next.getD a 0 =
      if c + 1 ≤ a ∧ a ≤ m then firstIdx g.head m (a + 1) (g.head.getD a 0) else 0

lemma buildStep_inv (g : EdgeList) (n m c : Nat) (hc : c < m)
    (hT : 1 ≤ g.tail.getD (c + 1) 0 ∧ g.tail.getD (c + 1) 0 ≤ n)
    (hH : 1 ≤ g.head.getD (c + 1) 0 ∧ g.head.getD (c + 1) 0 ≤ n)
    (st : DirectedGraph) (h : BuildInv g n m (c + 1) st) :
    BuildInv g n m c (buildStep g (c + 1) st) := by
  have hc1 : c + 1 ≤ m := hc
  refine ⟨?_, ?_, ?_, ?_, ?_, ?_, ?_, ?_⟩ <;>
    simp only [buildStep, List.length_set]
  · exact h.len_ef
  · exact h.len_en
  · exact h.len_rf
  · exact h.len_rn
  · intro v
    by_cases hv : v = g.tail.getD (c + 1) 0
    · subst hv
      rw [getD_set_self _ _ _ (by rw [h.len_ef]; omega)]
      rw [firstIdx_of_hit _ _ _ _ hc1 rfl]
    · rw [getD_set_ne _ _ _ _ hv, h.ef v,
        firstIdx_of_miss _ _ _ _ hc1 (fun hh => hv hh.symm)]
  · intro a
    by_cases ha : a = c + 1
    · subst ha
      rw [getD_set_self _ _ _ (by rw [h.len_en]; omega), h.ef]
      rw [if_pos ⟨le_refl _, hc1⟩]
    · rw [getD_set_ne _ _ _ _ ha, h.en a]
      by_cases hrange : c + 1 ≤ a ∧ a ≤ m
      · rw [if_pos ⟨by omega, hrange.2⟩, if_pos hrange]
      · rw [if_neg (by omega), if_neg hrange]
  · intro v
    by_cases hv : v = g.head.getD (c + 1) 0
    · subst hv
      rw [getD_set_self _ _ _ (by rw [h.len_rf]; omega)]
      rw [firstIdx_of_hit _ _ _ _ hc1 rfl]
    · rw [getD_set_ne _ _ _ _ hv, h.rf v,
        firstIdx_of_miss _ _ _ _ hc1 (fun hh => hv hh.symm)]
  · intro a
    by_cases ha : a = c + 1
    · subst ha
      rw [getD_set_self _ _ _ (by rw [h.len_rn]; omega), h.rf]
      rw [if_pos ⟨le_refl _, hc1⟩]
    · rw [getD_set_ne _ _ _ _ ha, h.rn a]
      by_cases hrange : c + 1 ≤ a ∧ a ≤ m
      · rw [if_pos ⟨by omega, hrange.2⟩, if_pos hrange]
      · rw [if_neg (by omega), if_neg hrange]

lemma buildLoop_inv (g : EdgeList) (n m : Nat)
    (hT : ∀ a ∈ Finset.Icc 1 m, 1 ≤ g.tail.getD a 0 ∧ g.tail.getD a 0 ≤ n)
    (hH : ∀ a ∈ Finset.Icc 1 m, 1 ≤ g.head.getD a 0 ∧ g.head.getD a 0 ≤ n) :
    ∀ c, c ≤ m → ∀ st, BuildInv g n m c st →
      BuildInv g n m 0 (buildLoop g c st) := by
  intro c
  induction c with
  | zero => intro _ st h; exact h
  | succ c ih =>
    intro hc st h
    rw [buildLoop]
    exact ih (by omega) _
      (buildStep_inv g n m c (by omega)
        (hT (c + 1) (Finset.mem_Icc.mpr (by omega)))
        (hH (c + 1) (Finset.mem_Icc.mpr (by omega))) st h)

/-- Characterisation of the builder's output on consistent input: every
chain head is the least matching edge id at or above 1, every next link of
an edge `a` in `1..=m` the least matching edge id above `a`, and the array
lengths are `n+1` / `m+1`. -/
lemma dicomp_inv (g : EdgeList) (n m : Nat) (h : Consistent g n m) :
    BuildInv g n m 0 (dicomp_incidence_list_construct g n m) := by
  obtain ⟨-, -, hT, hH⟩ := h
  refine buildLoop_inv g n m hT hH m (le_refl m) _ ?_
  refine ⟨by simp, by simp, by simp, by simp, ?_, ?_, ?_, ?_⟩
  · intro v
    rw [getD_replicate, firstIdx_of_gt _ _ _ _ (by omega)]
  · intro a
    rw [getD_replicate, if_neg (by omega)]
  · intro v
    rw [getD_replicate, firstIdx_of_gt _ _ _ _ (by omega)]
  · intro a
    rw [getD_replicate, if_neg (by omega)]

/-- Walking a chain whose links are the least-matching-index-above function
enumerates exactly the matching indices of `[lo, m]` in ascending order,
for any fuel of at least the number of remaining indices. -/
lemma chainList_eq_filter (t next : List Nat) (m : Nat)
    (hnext : ∀ a, next.getD a 0 =
      if 1 ≤ a ∧ a ≤ m then firstIdx t m (a + 1) (t.getD a 0) else 0) :
    ∀ cnt lo fuel v, 1 ≤ lo → lo + cnt = m + 1 → cnt ≤ fuel →
      chainList next fuel (firstIdx t m lo v) =
        (List.range' lo cnt).filter (fun a => t.getD a 0 = v) := by
  intro cnt
  induction cnt with
  | zero =>
    intro lo fuel v h1 h2 _
    rw [firstIdx_of_gt _ _ _ _ (by omega), chainList_zero]
    simp
  | succ cnt ih =>
    intro lo fuel v h1 h2 h3
    have hlom : lo ≤ m := by omega
    rw [List.range'_succ, List.filter_cons]
    by_cases ht : t.getD lo 0 = v
    · rw [firstIdx_of_hit _ _ _ _ hlom ht]
      cases fuel with
      | zero => omega
      | succ f =>
        rw [chainList, if_neg (by omega), hnext lo, if_pos ⟨h1, hlom⟩, ht,
          ih (lo + 1) f v (by omega) (by omega) (by omega)]
        simp [ht]
    · rw [firstIdx_of_miss _ _ _ _ hlom ht,
        ih (lo + 1) fuel v (by omega) (by omega) (by omega)]
      rw [if_neg (fun hd => ht (of_decide_eq_true hd))]

/-- Example graph of `main` and of the test
`test_dicomp_incidence_list_construct` in `src/main.rs`. -/
def exampleGraph : EdgeList :=
  { tail := [0, 1, 1, 6, 6, 4, 5, 3, 2, 4]
    head := [0, 2, 5, 2, 5, 1, 4, 6, 3, 3] }

/-- Self-loop graph of the test `self_loop` in `src/main.rs`. -/
def selfLoopGraph : EdgeList :=
  { tail := [0, 2]
    head := [0, 2] }

/-- Linear chain graph of the test `dfs_linear` in `src/main.rs`. -/
def lineGraph : EdgeList :=
  { tail := [0, 1, 2]
    head := [0, 2, 3] }

/-- Shared helper: the forward chain of any vertex of the built graph is
the ascending list of edge ids with the matching tail. -/
lemma dicomp_forward_chain (g : EdgeList) (n m : Nat) (h : Consistent g n m)
    (v fuel : Nat) (hf : m ≤ fuel) :
    chainList (dicomp_incidence_list_construct g n m).edge_next fuel
        ((dicomp_incidence_list_construct g n m).edge_first.getD v 0) =
      (List.range' 1 m).filter (fun a => g.tail.getD a 0 = v) := by
  have hi := dicomp_inv g n m h
  rw [hi.ef v]
  exact chainList_eq_filter g.tail _ m hi.en m 1 fuel v (le_refl 1) (by omega) hf

/-- Shared helper: the reverse chain of any vertex of the built graph is
the ascending list of edge ids with the matching head. -/
lemma dicomp_rev_chain (g : EdgeList) (n m : Nat) (h : Consistent g n m)
    (v fuel : Nat) (hf : m ≤ fuel) :
    chainList (dicomp_incidence_list_construct g n m).rev_edge_next fuel
        ((dicomp_incidence_list_construct g n m).rev_edge_first.getD v 0) =
      (List.range' 1 m).filter (fun a => g.head.getD a 0 = v) := by
  have hi := dicomp_inv g n m h
  rw [hi.rf v]
  exact chainList_eq_filter g.head _ m hi.rn m 1 fuel v (le_refl 1) (by omega) hf

/-- C1: for every edge list with consistent counts and every vertex
`v ∈ 1..=n`, the walk from `edge_first[v]` along `edge_next` up to the
sentinel 0 (any fuel of at least `m` covers the full walk) enumerates
exactly the edges `a ∈ 1..=m` with `tail[a] = v` in ascending edge-id
order, and the walk from `rev_edge_first[v]` along `rev_edge_next`
enumerates the edges with `head[a] = v` in ascending edge-id order. -/
theorem dicomp_chain_order (g : EdgeList) (n m : Nat) (h : Consistent g n m) :
    ∀ v, 1 ≤ v → v ≤ n → ∀ fuel, m ≤ fuel →
      chainList (dicomp_incidence_list_construct g n m).edge_next fuel
          ((dicomp_incidence_list_construct g n m).edge_first.getD v 0) =
        (List.range' 1 m).filter (fun a => g.tail.getD a 0 = v) ∧
      chainList (dicomp_incidence_list_construct g n m).rev_edge_next fuel
          ((dicomp_incidence_list_construct g n m).rev_edge_first.getD v 0) =
        (List.range' 1 m).filter (fun a => g.head.getD a 0 = v) := by
  intro v _ _ fuel hfuel
  exact ⟨dicomp_forward_chain g n m h v fuel hfuel,
    dicomp_rev_chain g n m h v fuel hfuel⟩

/-- Witness for C1 on the concrete graph of the repository's tests. -/
theorem dicomp_chain_order_witness :
    Consistent exampleGraph 6 9 ∧
      (∀ v, 1 ≤ v → v ≤ 6 → ∀ fuel, 9 ≤ fuel →
        chainList (dicomp_incidence_list_construct exampleGraph 6 9).edge_next fuel
            ((dicomp_incidence_list_construct exampleGraph 6 9).edge_first.getD v 0) =
          (List.range' 1 9).filter (fun a => exampleGraph.tail.getD a 0 = v) ∧
        chainList (dicomp_incidence_list_construct exampleGraph 6 9).rev_edge_next fuel
            ((dicomp_incidence_list_construct exampleGraph 6 9).rev_edge_first.getD v 0) =
          (List.range' 1 9).filter (fun a => exampleGraph.head.getD a 0 = v)) :=
  ⟨by decide, dicomp_chain_order exampleGraph 6 9 (by decide)⟩

/-- Shared helper: occurrence count of an edge id in a matching-index
filter of `1..=m`. -/
lemma count_filter_range' (t : List Nat) (m v a : Nat) :
    ((List.range' 1 m).filter (fun b => t.getD b 0 = v)).count a =
      if 1 ≤ a ∧ a ≤ m ∧ t.getD a 0 = v then 1 else 0 := by
  by_cases ht : t.getD a 0 = v
  · rw [List.count_filter (by simpa using ht)]
    by_cases hmem : a ∈ List.range' 1 m
    · rw [List.count_eq_one_of_mem (List.nodup_range' 1 m) hmem]
      have := List.mem_range'_1.mp hmem
      rw [if_pos ⟨this.1, by omega, ht⟩]
    · rw [List.count_eq_zero.mpr hmem]
      have : ¬(1 ≤ a ∧ a < 1 + m) := fun hc => hmem (List.mem_range'_1.mpr hc)
      rw [if_neg (by omega)]
  · rw [List.count_eq_zero.mpr, if_neg (by tauto)]
    intro hmem
    exact ht (by simpa using (List.mem_filter.mp hmem).2)

/-- C2: walking the forward chain of any vertex `v ∈ 1..=n` of the built
graph visits each edge `a ∈ 1..=m` with `tail[a] = v` exactly once and
visits no other edge id: the occurrence count of every `a` in the walk is
1 when `tail[a] = v` and `a ∈ 1..=m`, and 0 otherwise (so no edge is
missing, none repeats, and no edge appears in another vertex's chain). -/
theorem dicomp_chain_coverage (g : EdgeList) (n m : Nat) (h : Consistent g n m) :
    ∀ v, 1 ≤ v → v ≤ n → ∀ a,
      (chainList (dicomp_incidence_list_construct g n m).edge_next (m + 1)
          ((dicomp_incidence_list_construct g n m).edge_first.getD v 0)).count a =
        if 1 ≤ a ∧ a ≤ m ∧ g.tail.getD a 0 = v then 1 else 0 := by
  intro v _ _ a
  rw [dicomp_forward_chain g n m h v (m + 1) (by omega)]
  exact count_filter_range' g.tail m v a

/-- Witness for C2 on the concrete graph of the repository's tests. -/
theorem dicomp_chain_coverage_witness :
    Consistent exampleGraph 6 9 ∧
      (∀ v, 1 ≤ v → v ≤ 6 → ∀ a,
        (chainList (dicomp_incidence_list_construct exampleGraph 6 9).edge_next 10
            ((dicomp_incidence_list_construct exampleGraph 6 9).edge_first.getD v 0)).count a =
          if 1 ≤ a ∧ a ≤ 9 ∧ exampleGraph.tail.getD a 0 = v then 1 else 0) :=
  ⟨by decide, dicomp_chain_coverage exampleGraph 6 9 (by decide)⟩

/-- C8: on the concrete test input of `src/main.rs` the builder returns
`edge_first = [1,8,7,5,6,3]` at vertices 1..=6 and
`edge_next = [2,0,4,0,9,0,0,0,0]` at edges 1..=9. -/
theorem dicomp_example_arrays :
    (List.range' 1 6).map
        (fun v => (dicomp_incidence_list_construct exampleGraph 6 9).edge_first.getD v 0) =
      [1, 8, 7, 5, 6, 3] ∧
    (List.range' 1 9).map
        (fun a => (dicomp_incidence_list_construct exampleGraph 6 9).edge_next.getD a 0) =
      [2, 0, 4, 0, 9, 0, 0, 0, 0] := by
  decide

/-- C9: a self-loop edge `a` (with `tail[a] = head[a]`) appears exactly once
in the forward chain of its vertex and exactly once in the reverse chain of
the same vertex; on the one-edge self-loop input (`tail = [2]`,
`head = [2]`, `n = 3`) the chain heads read at vertices 1..=3 are
`[0,1,0]` in both directions. -/
theorem dicomp_self_loop (g : EdgeList) (n m : Nat) (h : Consistent g n m)
    (a : Nat) (ha1 : 1 ≤ a) (ha2 : a ≤ m)
    (hloop : g.tail.getD a 0 = g.head.getD a 0) :
    ((chainList (dicomp_incidence_list_construct g n m).edge_next (m + 1)
        ((dicomp_incidence_list_construct g n m).edge_first.getD
          (g.tail.getD a 0) 0)).count a = 1 ∧
      (chainList (dicomp_incidence_list_construct g n m).rev_edge_next (m + 1)
        ((dicomp_incidence_list_construct g n m).rev_edge_first.getD
          (g.tail.getD a 0) 0)).count a = 1) ∧
    ((List.range' 1 3).map (fun v =>
        (dicomp_incidence_list_construct selfLoopGraph 3 1).edge_first.getD v 0) =
        [0, 1, 0] ∧
      (List.range' 1 3).map (fun v =>
        (dicomp_incidence_list_construct selfLoopGraph 3 1).rev_edge_first.getD v 0) =
        [0, 1, 0]) := by
  refine ⟨⟨?_, ?_⟩, by decide, by decide⟩
  · rw [dicomp_forward_chain g n m h _ (m + 1) (by omega), count_filter_range',
      if_pos ⟨ha1, ha2, rfl⟩]
  · rw [dicomp_rev_chain g n m h _ (m + 1) (by omega), count_filter_range',
      if_pos ⟨ha1, ha2, hloop.symm⟩]

/-- Witness for C9 at the concrete self-loop input. -/
theorem dicomp_self_loop_witness :
    (Consistent selfLoopGraph 3 1 ∧ 1 ≤ 1 ∧ 1 ≤ 1 ∧
      selfLoopGraph.tail.getD 1 0 = selfLoopGraph.head.getD 1 0) ∧
    ((chainList (dicomp_incidence_list_construct selfLoopGraph 3 1).edge_next 2
        ((dicomp_incidence_list_construct selfLoopGraph 3 1).edge_first.getD
          (selfLoopGraph.tail.getD 1 0) 0)).count 1 = 1 ∧
      (chainList (dicomp_incidence_list_construct selfLoopGraph 3 1).rev_edge_next 2
        ((dicomp_incidence_list_construct selfLoopGraph 3 1).rev_edge_first.getD
          (selfLoopGraph.tail.getD 1 0) 0)).count 1 = 1) ∧
    ((List.range' 1 3).map (fun v =>
        (dicomp_incidence_list_construct selfLoopGraph 3 1).edge_first.getD v 0) =
        [0, 1, 0] ∧
      (List.range' 1 3).map (fun v =>
        (dicomp_incidence_list_construct selfLoopGraph 3 1).rev_edge_first.getD v 0) =
        [0, 1, 0]) :=
  ⟨⟨by decide, by decide, by decide, by decide⟩,
    dicomp_self_loop selfLoopGraph 3 1 (by decide) 1 (by decide) (by decide) (by decide)⟩

lemma firstIdx_cases (t : List Nat) (m : Nat) :
    ∀ cnt lo v, lo + cnt = m + 1 →
      firstIdx t m lo v = 0 ∨
        (lo ≤ firstIdx t m lo v ∧ firstIdx t m lo v ≤ m ∧
          t.getD (firstIdx t m lo v) 0 = v ∧
          ∀ b, lo ≤ b → b < firstIdx t m lo v → t.getD b 0 ≠ v) := by
  intro cnt
  induction cnt with
  | zero =>
    intro lo v h
    rw [firstIdx_of_gt _ _ _ _ (by omega)]
    exact Or.inl rfl
  | succ cnt ih =>
    intro lo v h
    by_cases ht : t.getD lo 0 = v
    · rw [firstIdx_of_hit _ _ _ _ (by omega) ht]
      exact Or.inr ⟨le_refl _, by omega, ht, fun b hb1 hb2 => by omega⟩
    · rw [firstIdx_of_miss _ _ _ _ (by omega) ht]
      rcases ih (lo + 1) v (by omega) with h0 | ⟨hl, hm, hv, hmin⟩
      · exact Or.inl h0
      · refine Or.inr ⟨by omega, hm, hv, ?_⟩
        intro b hb1 hb2
        rcases Nat.eq_or_lt_of_le hb1 with heq | hlt
        · rw [← heq]; exact ht
        · exact hmin b (by omega) hb2

/-- C10: structural invariants of the builder's output on consistent input:
index 0 of all four arrays is 0; each `edge_first[v]` (resp.
`rev_edge_first[v]`) is 0 or the smallest edge id with tail (resp. head)
`v`; each `edge_next[a]` and `rev_edge_next[a]` for `a ∈ 1..=m` is 0 or
strictly greater than `a`; and every chain walk is strictly ascending. -/
theorem dicomp_structural_inv (g : EdgeList) (n m : Nat) (h : Consistent g n m) :
    ((dicomp_incidence_list_construct g n m).edge_first.getD 0 0 = 0 ∧
      (dicomp_incidence_list_construct g n m).edge_next.getD 0 0 = 0 ∧
      (dicomp_incidence_list_construct g n m).rev_edge_first.getD 0 0 = 0 ∧
      (dicomp_incidence_list_construct g n m).rev_edge_next.getD 0 0 = 0) ∧
    (∀ v, (dicomp_incidence_list_construct g n m).edge_first.getD v 0 = 0 ∨
      (1 ≤ (dicomp_incidence_list_construct g n m).edge_first.getD v 0 ∧
        (dicomp_incidence_list_construct g n m).edge_first.getD v 0 ≤ m ∧
        g.tail.getD ((dicomp_incidence_list_construct g n m).edge_first.getD v 0) 0 = v ∧
        ∀ b, 1 ≤ b → b ≤ m → g.tail.getD b 0 = v →
          (dicomp_incidence_list_construct g n m).edge_first.getD v 0 ≤ b)) ∧
    (∀ v, (dicomp_incidence_list_construct g n m).rev_edge_first.getD v 0 = 0 ∨
      (1 ≤ (dicomp_incidence_list_construct g n m).rev_edge_first.getD v 0 ∧
        (dicomp_incidence_list_construct g n m).rev_edge_first.getD v 0 ≤ m ∧
        g.head.getD ((dicomp_incidence_list_construct g n m).rev_edge_first.getD v 0) 0 = v ∧
        ∀ b, 1 ≤ b → b ≤ m → g.head.getD b 0 = v →
          (dicomp_incidence_list_construct g n m).rev_edge_first.getD v 0 ≤ b)) ∧
    (∀ a, 1 ≤ a → a ≤ m →
      ((dicomp_incidence_list_construct g n m).edge_next.getD a 0 = 0 ∨
        a < (dicomp_incidence_list_construct g n m).edge_next.getD a 0) ∧
      ((dicomp_incidence_list_construct g n m).rev_edge_next.getD a 0 = 0 ∨
        a < (dicomp_incidence_list_construct g n m).rev_edge_next.getD a 0)) ∧
    (∀ v,
      (chainList (dicomp_incidence_list_construct g n m).edge_next (m + 1)
          ((dicomp_incidence_list_construct g n m).edge_first.getD v 0)).Pairwise (· < ·) ∧
      (chainList (dicomp_incidence_list_construct g n m).rev_edge_next (m + 1)
          ((dicomp_incidence_list_construct g n m).rev_edge_first.getD v 0)).Pairwise
          (· < ·)) := by
  obtain ⟨hlt, hlh, hT, hH⟩ := h
  have hi := dicomp_inv g n m ⟨hlt, hlh, hT, hH⟩
  refine ⟨⟨?_, ?_, ?_, ?_⟩, ?_, ?_, ?_, ?_⟩
  · rw [hi.ef 0]
    rcases firstIdx_cases g.tail m m 1 0 (by omega) with h0 | ⟨h1, h2, h3, -⟩
    · exact h0
    · have := (hT _ (Finset.mem_Icc.mpr ⟨h1, h2⟩)).1
      omega
  · rw [hi.en 0, if_neg (by omega)]
  · rw [hi.rf 0]
    rcases firstIdx_cases g.head m m 1 0 (by omega) with h0 | ⟨h1, h2, h3, -⟩
    · exact h0
    · have := (hH _ (Finset.mem_Icc.mpr ⟨h1, h2⟩)).1
      omega
  · rw [hi.rn 0, if_neg (by omega)]
  · intro v
    rw [hi.ef v]
    simp only [Nat.zero_add]
    rcases firstIdx_cases g.tail m m 1 v (by omega) with h0 | ⟨h1, h2, h3, hmin⟩
    · exact Or.inl h0
    · refine Or.inr ⟨h1, h2, h3, ?_⟩
      intro b hb1 _ hbv
      by_contra hc
      exact hmin b hb1 (by omega) hbv
  · intro v
    rw [hi.rf v]
    simp only [Nat.zero_add]
    rcases firstIdx_cases g.head m m 1 v (by omega) with h0 | ⟨h1, h2, h3, hmin⟩
    · exact Or.inl h0
    · refine Or.inr ⟨h1, h2, h3, ?_⟩
      intro b hb1 _ hbv
      by_contra hc
      exact hmin b hb1 (by omega) hbv
  · intro a ha1 ha2
    constructor
    · rw [hi.en a, if_pos ⟨ha1, ha2⟩]
      rcases firstIdx_cases g.tail m (m - a) (a + 1) (g.tail.getD a 0) (by omega) with
        h0 | ⟨h1, -, -, -⟩
      · exact Or.inl h0
      · exact Or.inr (by omega)
    · rw [hi.rn a, if_pos ⟨ha1, ha2⟩]
      rcases firstIdx_cases g.head m (m - a) (a + 1) (g.head.getD a 0) (by omega) with
        h0 | ⟨h1, -, -, -⟩
      · exact Or.inl h0
      · exact Or.inr (by omega)
  · intro v
    constructor
    · rw [dicomp_forward_chain g n m ⟨hlt, hlh, hT, hH⟩ v (m + 1) (by omega)]
      exact List.Pairwise.filter _ (List.pairwise_lt_range' 1 m)
    · rw [dicomp_rev_chain g n m ⟨hlt, hlh, hT, hH⟩ v (m + 1) (by omega)]
      exact List.Pairwise.filter _ (List.pairwise_lt_range' 1 m)

/-- Witness for C10 at the concrete graph of the repository's tests. -/
theorem dicomp_structural_inv_witness :
    Consistent exampleGraph 6 9 ∧
      (dicomp_incidence_list_construct exampleGraph 6 9).edge_first.getD 0 0 = 0 :=
  ⟨by decide, ((dicomp_structural_inv exampleGraph 6 9 (by decide)).1).1⟩

/-- Vertices of `1..=n` carrying a nonzero entry in a label array. -/
def labelSet (n : Nat) (lab : List Nat) : Finset Nat :=
  (Finset.Icc 1 n).filter (fun u => lab.getD u 0 ≠ 0)

lemma mem_labelSet (n : Nat) (lab : List Nat) (u : Nat) :
    u ∈ labelSet n lab ↔ 1 ≤ u ∧ u ≤ n ∧ lab.getD u 0 ≠ 0 := by
  simp [labelSet, Finset.mem_filter, Finset.mem_Icc, and_assoc]

lemma labelSet_replicate (n c : Nat) : labelSet n (List.replicate c 0) = ∅ := by
  ext u
  simp [mem_labelSet, getD_replicate]

lemma labelSet_set (n : Nat) (lab : List Nat) (v x : Nat) (hx : x ≠ 0)
    (hv1 : 1 ≤ v) (hv2 : v ≤ n) (hlen : v < lab.length) :
    labelSet n (lab.set v x) = insert v (labelSet n lab) := by
  ext u
  by_cases hu : u = v
  · subst hu
    constructor
    · intro _
      exact Finset.mem_insert_self u _
    · intro _
      rw [mem_labelSet]
      refine ⟨hv1, hv2, ?_⟩
      rw [getD_set_self lab u x hlen]
      exact hx
  · rw [mem_labelSet, Finset.mem_insert, mem_labelSet, getD_set_ne lab v u x hu]
    tauto

/-- Single directed step along an edge `a ∈ 1..=m` of the edge list. -/
def edgeStep (g : EdgeList) (m : Nat) (u w : Nat) : Prop :=
  ∃ a, 1 ≤ a ∧ a ≤ m ∧ g.tail.getD a 0 = u ∧ g.head.getD a 0 = w

/-- Invariant maintained by the DFS between any two steps: lengths of the
label arrays, counters one above the number of labelled vertices, labels
injective and below the counters, finished vertices discovered, and every
out-edge of a finished vertex leading to a discovered vertex. -/
structure DfsInv (g : EdgeList) (n m : Nat) (st : DfsState) : Prop where
  len_pre : st.pre_label.length = n + 1
  len_post : st.post_label.length = n + 1
  hk : st.k = (labelSet n st.pre_label).card + 1
  hj : st.j = (labelSet n st.post_label).card + 1
  pre_lt : ∀ u ∈ labelSet n st.pre_label, st.pre_label.getD u 0 < st.k
  post_lt : ∀ u ∈ labelSet n st.post_label, st.post_label.getD u 0 < st.j
  pre_inj : ∀ u ∈ labelSet n st.pre_label, ∀ w ∈ labelSet n st.pre_label,
      st.pre_label.getD u 0 = st.pre_label.getD w 0 → u = w
  post_inj : ∀ u ∈ labelSet n st.post_label, ∀ w ∈ labelSet n st.post_label,
      st.post_label.getD u 0 = st.post_label.getD w 0 → u = w
  fin_sub : labelSet n st.post_label ⊆ labelSet n st.pre_label
  closed : ∀ u ∈ labelSet n st.post_label, ∀ w, edgeStep g m u w →
      w ∈ labelSet n st.pre_label

/-- Entering a vertex (`pre_label[v] = k; k += 1`) preserves the invariant
and inserts `v` into the discovered set. -/
lemma mark_inv (g : EdgeList) (n m : Nat) (st : DfsState)
    (inv : DfsInv g n m st) (v : Nat) (hv1 : 1 ≤ v) (hv2 : v ≤ n)
    (hnv : v ∉ labelSet n st.pre_label) :
    DfsInv g n m ⟨st.pre_label.set v st.k, st.post_label, st.k + 1, st.j⟩ ∧
      labelSet n (st.pre_label.set v st.k) = insert v (labelSet n st.pre_label) := by
  have hk0 : st.k ≠ 0 := by rw [inv.hk]; omega
  have hlen : v < st.pre_label.length := by rw [inv.len_pre]; omega
  have hset := labelSet_set n st.pre_label v st.k hk0 hv1 hv2 hlen
  have hgv : (st.pre_label.set v st.k).getD v 0 = st.k :=
    getD_set_self st.pre_label v st.k hlen
  refine ⟨⟨?_, inv.len_post, ?_, inv.hj, ?_, ?_, ?_, inv.post_inj, ?_, ?_⟩, hset⟩
  · rw [List.length_set]
    exact inv.len_pre
  · show st.k + 1 = (labelSet n (st.pre_label.set v st.k)).card + 1
    rw [hset, Finset.card_insert_of_not_mem hnv, inv.hk]
  · intro u hu
    rw [hset, Finset.mem_insert] at hu
    rcases hu with rfl | hu
    · show (st.pre_label.set u st.k).getD u 0 < st.k + 1
      rw [hgv]
      omega
    · show (st.pre_label.set v st.k).getD u 0 < st.k + 1
      have hne : u ≠ v := fun hc => hnv (hc ▸ hu)
      rw [getD_set_ne st.pre_label v u st.k hne]
      have := inv.pre_lt u hu
      omega
  · intro u hu
    exact inv.post_lt u hu
  · intro u hu w hw
    rw [hset, Finset.mem_insert] at hu hw
    rcases hu with rfl | hu <;> rcases hw with h1 | hw1
    · intro _
      rw [h1]
    · have hne : w ≠ u := fun hc => hnv (hc ▸ hw1)
      rw [hgv, getD_set_ne st.pre_label u w st.k hne]
      intro hc
      have := inv.pre_lt w hw1
      omega
    · subst h1
      have hne : u ≠ w := fun hc => hnv (hc ▸ hu)
      rw [hgv, getD_set_ne st.pre_label w u st.k hne]
      intro hc
      have := inv.pre_lt u hu
      omega
    · have hneu : u ≠ v := fun hc => hnv (hc ▸ hu)
      have hnew : w ≠ v := fun hc => hnv (hc ▸ hw1)
      rw [getD_set_ne st.pre_label v u st.k hneu,
        getD_set_ne st.pre_label v w st.k hnew]
      exact inv.pre_inj u hu w hw1
  · intro u hu
    rw [hset]
    exact Finset.mem_insert_of_mem (inv.fin_sub hu)
  · intro u hu w hw
    rw [hset]
    exact Finset.mem_insert_of_mem (inv.closed u hu w hw)

/-- Leaving a vertex (`post_label[v] = j; j += 1`) preserves the invariant
when `v` is discovered, not yet finished, and all its out-edges lead to
discovered vertices. -/
lemma finish_inv (g : EdgeList) (n m : Nat) (st : DfsState)
    (inv : DfsInv g n m st) (v : Nat) (hv1 : 1 ≤ v) (hv2 : v ≤ n)
    (hvis : v ∈ labelSet n st.pre_label)
    (hnf : v ∉ labelSet n st.post_label)
    (hcl : ∀ w, edgeStep g m v w → w ∈ labelSet n st.pre_label) :
    DfsInv g n m ⟨st.pre_label, st.post_label.set v st.j, st.k, st.j + 1⟩ ∧
      labelSet n (st.post_label.set v st.j) = insert v (labelSet n st.post_label) := by
  have hj0 : st.j ≠ 0 := by rw [inv.hj]; omega
  have hlen : v < st.post_label.length := by rw [inv.len_post]; omega
  have hset := labelSet_set n st.post_label v st.j hj0 hv1 hv2 hlen
  have hgv : (st.post_label.set v st.j).getD v 0 = st.j :=
    getD_set_self st.post_label v st.j hlen
  refine ⟨⟨inv.len_pre, ?_, inv.hk, ?_, inv.pre_lt, ?_, inv.pre_inj, ?_, ?_, ?_⟩, hset⟩
  · rw [List.length_set]
    exact inv.len_post
  · show st.j + 1 = (labelSet n (st.post_label.set v st.j)).card + 1
    rw [hset, Finset.card_insert_of_not_mem hnf, inv.hj]
  · intro u hu
    rw [hset, Finset.mem_insert] at hu
    rcases hu with rfl | hu
    · show (st.post_label.set u st.j).getD u 0 < st.j + 1
      rw [hgv]
      omega
    · show (st.post_label.set v st.j).getD u 0 < st.j + 1
      have hne : u ≠ v := fun hc => hnf (hc ▸ hu)
      rw [getD_set_ne st.post_label v u st.j hne]
      have := inv.post_lt u hu
      omega
  · intro u hu w hw
    rw [hset, Finset.mem_insert] at hu hw
    rcases hu with rfl | hu <;> rcases hw with h1 | hw1
    · intro _
      rw [h1]
    · have hne : w ≠ u := fun hc => hnf (hc ▸ hw1)
      rw [hgv, getD_set_ne st.post_label u w st.j hne]
      intro hc
      have := inv.post_lt w hw1
      omega
    · subst h1
      have hne : u ≠ w := fun hc => hnf (hc ▸ hu)
      rw [hgv, getD_set_ne st.post_label w u st.j hne]
      intro hc
      have := inv.post_lt u hu
      omega
    · have hneu : u ≠ v := fun hc => hnf (hc ▸ hu)
      have hnew : w ≠ v := fun hc => hnf (hc ▸ hw1)
      rw [getD_set_ne st.post_label v u st.j hneu,
        getD_set_ne st.post_label v w st.j hnew]
      exact inv.post_inj u hu w hw1
  · intro u hu
    rw [hset, Finset.mem_insert] at hu
    rcases hu with rfl | hu
    · exact hvis
    · exact inv.fin_sub hu
  · intro u hu w hw
    rw [hset, Finset.mem_insert] at hu
    rcases hu with rfl | hu
    · exact hcl w hw
    · exact inv.closed u hu w hw

lemma go_succ (g : EdgeList) (dg : DirectedGraph) (fuel v : Nat) (st : DfsState) :
    go g dg (fuel + 1) v st =
      { pre_label := (goList g dg fuel (outEdges dg v)
          ⟨st.pre_label.set v st.k, st.post_label, st.k + 1, st.j⟩).pre_label
        post_label := (goList g dg fuel (outEdges dg v)
          ⟨st.pre_label.set v st.k, st.post_label, st.k + 1, st.j⟩).post_label.set v
            (goList g dg fuel (outEdges dg v)
              ⟨st.pre_label.set v st.k, st.post_label, st.k + 1, st.j⟩).j
        k := (goList g dg fuel (outEdges dg v)
          ⟨st.pre_label.set v st.k, st.post_label, st.k + 1, st.j⟩).k
        j := (goList g dg fuel (outEdges dg v)
          ⟨st.pre_label.set v st.k, st.post_label, st.k + 1, st.j⟩).j + 1 } := by
  rw [go]

lemma goList_nil (g : EdgeList) (dg : DirectedGraph) (fuel : Nat) (st : DfsState) :
    goList g dg fuel [] st = st := by
  rw [goList]

lemma goList_cons (g : EdgeList) (dg : DirectedGraph) (fuel a : Nat)
    (rest : List Nat) (st : DfsState) :
    goList g dg fuel (a :: rest) st =
      goList g dg fuel rest
        (if st.pre_label.getD (g.head.getD a 0) 0 = 0
          then go g dg fuel (g.head.getD a 0) st else st) := by
  rw [goList]

lemma sdiff_union_sdiff_of_subset (s t u : Finset Nat) (h1 : s ⊆ t) (h2 : t ⊆ u) :
    (t \ s) ∪ (u \ t) = u \ s := by
  ext x
  simp only [Finset.mem_union, Finset.mem_sdiff]
  constructor
  · rintro (⟨hxt, hxs⟩ | ⟨hxu, hxt⟩)
    · exact ⟨h2 hxt, hxs⟩
    · exact ⟨hxu, fun hxs => hxt (h1 hxs)⟩
  · rintro ⟨hxu, hxs⟩
    by_cases hxt : x ∈ t
    · exact Or.inl ⟨hxt, hxs⟩
    · exact Or.inr ⟨hxu, hxt⟩

lemma insert_union_sdiff_insert (A X S : Finset Nat) (v : Nat)
    (hvX : v ∈ X) (hvS : v ∉ S) :
    insert v (A ∪ (X \ insert v S)) = A ∪ (X \ S) := by
  ext x
  simp only [Finset.mem_insert, Finset.mem_union, Finset.mem_sdiff]
  constructor
  · rintro (rfl | hA | ⟨hX, hS⟩)
    · exact Or.inr ⟨hvX, hvS⟩
    · exact Or.inl hA
    · exact Or.inr ⟨hX, fun hc => hS (Or.inr hc)⟩
  · rintro (hA | ⟨hX, hS⟩)
    · exact Or.inr (Or.inl hA)
    · by_cases hx : x = v
      · exact Or.inl hx
      · refine Or.inr (Or.inr ⟨hX, ?_⟩)
        rintro (hc | hc)
        · exact hx hc
        · exact hS hc

/-- Postcondition of running the edge-walking loop of `go` on a list `l` of
edge ids: the invariant is preserved, already assigned labels are frozen,
counters and discovered/finished sets only grow, every newly discovered
vertex is reachable from the head of some edge of `l`, the head of every
edge of `l` ends up discovered, and every newly discovered vertex is
finished. -/
structure GoListPost (g : EdgeList) (n m : Nat) (l : List Nat)
    (st st' : DfsState) : Prop where
  inv : DfsInv g n m st'
  frame_pre : ∀ u, st.pre_label.getD u 0 ≠ 0 →
      st'.pre_label.getD u 0 = st.pre_label.getD u 0
  frame_post : ∀ u, st.post_label.getD u 0 ≠ 0 →
      st'.post_label.getD u 0 = st.post_label.getD u 0
  k_mono : st.k ≤ st'.k
  j_mono : st.j ≤ st'.j
  vis_mono : labelSet n st.pre_label ⊆ labelSet n st'.pre_label
  reach : ∀ w ∈ labelSet n st'.pre_label, w ∈ labelSet n st.pre_label ∨
      ∃ a ∈ l, Relation.ReflTransGen (edgeStep g m) (g.head.getD a 0) w
  heads : ∀ a ∈ l, g.head.getD a 0 ∈ labelSet n st'.pre_label
  new_fin : labelSet n st'.post_label = labelSet n st.post_label ∪
      (labelSet n st'.pre_label \ labelSet n st.pre_label)

/-- Postcondition of one recursive DFS visit of an undiscovered vertex `v`:
the invariant is preserved, already assigned labels are frozen, counters
and discovered sets only grow, `v` gets pre-label `st.k` and is finished,
every newly discovered vertex is reachable from `v`, and every newly
discovered vertex is finished. -/
structure GoPost (g : EdgeList) (n m v : Nat) (st st' : DfsState) : Prop where
  inv : DfsInv g n m st'
  frame_pre : ∀ u, st.pre_label.getD u 0 ≠ 0 →
      st'.pre_label.getD u 0 = st.pre_label.getD u 0
  frame_post : ∀ u, st.post_label.getD u 0 ≠ 0 →
      st'.post_label.getD u 0 = st.post_label.getD u 0
  k_mono : st.k ≤ st'.k
  j_mono : st.j ≤ st'.j
  vis_mono : labelSet n st.pre_label ⊆ labelSet n st'.pre_label
  pre_v : st'.pre_label.getD v 0 = st.k
  fin_v : v ∈ labelSet n st'.post_label
  reach : ∀ w ∈ labelSet n st'.pre_label, w ∈ labelSet n st.pre_label ∨
      Relation.ReflTransGen (edgeStep g m) v w
  new_fin : labelSet n st'.post_label = labelSet n st.post_label ∪
      (labelSet n st'.pre_label \ labelSet n st.pre_label)

/-- Main lemma for the edge-walking loop, by induction along the edge list,
assuming the corresponding property of the recursive visit at the same
fuel. -/
lemma goList_post_of_go (g : EdgeList) (dg : DirectedGraph) (n m : Nat)
    (hH : ∀ a ∈ Finset.Icc 1 m, 1 ≤ g.head.getD a 0 ∧ g.head.getD a 0 ≤ n)
    (fuel : Nat)
    (IH : ∀ v st, DfsInv g n m st → 1 ≤ v → v ≤ n →
      v ∉ labelSet n st.pre_label →
      (Finset.Icc 1 n \ labelSet n st.pre_label).card ≤ fuel →
      GoPost g n m v st (go g dg fuel v st)) :
    ∀ l st, DfsInv g n m st → (∀ a ∈ l, 1 ≤ a ∧ a ≤ m) →
      (Finset.Icc 1 n \ labelSet n st.pre_label).card ≤ fuel →
      GoListPost g n m l st (goList g dg fuel l st) := by
  intro l
  induction l with
  | nil =>
    intro st inv _ _
    rw [goList_nil]
    exact
      { inv := inv
        frame_pre := fun u _ => rfl
        frame_post := fun u _ => rfl
        k_mono := le_refl _
        j_mono := le_refl _
        vis_mono := Finset.Subset.refl _
        reach := fun w hw => Or.inl hw
        heads := by simp
        new_fin := by simp }
  | cons a rest ih =>
    intro st inv hbound hfuel
    have ha := hbound a (List.mem_cons_self a rest)
    have hw := hH a (Finset.mem_Icc.mpr ha)
    rw [goList_cons]
    by_cases hvw : st.pre_label.getD (g.head.getD a 0) 0 = 0
    · rw [if_pos hvw]
      have hnv : g.head.getD a 0 ∉ labelSet n st.pre_label := by
        rw [mem_labelSet]
        tauto
      have hpost := IH (g.head.getD a 0) st inv hw.1 hw.2 hnv hfuel
      have hfuel2 :
          (Finset.Icc 1 n \
            labelSet n (go g dg fuel (g.head.getD a 0) st).pre_label).card ≤ fuel := by
        refine le_trans (Finset.card_le_card ?_) hfuel
        exact Finset.sdiff_subset_sdiff (Finset.Subset.refl _) hpost.vis_mono
      have hrest := ih (go g dg fuel (g.head.getD a 0) st) hpost.inv
        (fun b hb => hbound b (List.mem_cons_of_mem a hb)) hfuel2
      refine
        { inv := hrest.inv
          frame_pre := ?_
          frame_post := ?_
          k_mono := le_trans hpost.k_mono hrest.k_mono
          j_mono := le_trans hpost.j_mono hrest.j_mono
          vis_mono := Finset.Subset.trans hpost.vis_mono hrest.vis_mono
          reach := ?_
          heads := ?_
          new_fin := ?_ }
      · intro u hu
        rw [hrest.frame_pre u (by rw [hpost.frame_pre u hu]; exact hu),
          hpost.frame_pre u hu]
      · intro u hu
        rw [hrest.frame_post u (by rw [hpost.frame_post u hu]; exact hu),
          hpost.frame_post u hu]
      · intro w hwvis
        rcases hrest.reach w hwvis with hin | ⟨b, hb, hr⟩
        · rcases hpost.reach w hin with hin2 | hr
          · exact Or.inl hin2
          · exact Or.inr ⟨a, List.mem_cons_self a rest, hr⟩
        · exact Or.inr ⟨b, List.mem_cons_of_mem a hb, hr⟩
      · intro b hb
        rcases List.mem_cons.mp hb with rfl | hb2
        · refine hrest.vis_mono ?_
          rw [mem_labelSet]
          refine ⟨hw.1, hw.2, ?_⟩
          rw [hpost.pre_v, inv.hk]
          omega
        · exact hrest.heads b hb2
      · rw [hrest.new_fin, hpost.new_fin, Finset.union_assoc,
          sdiff_union_sdiff_of_subset _ _ _ hpost.vis_mono hrest.vis_mono]
    · rw [if_neg hvw]
      have hrest := ih st inv
        (fun b hb => hbound b (List.mem_cons_of_mem a hb)) hfuel
      refine
        { inv := hrest.inv
          frame_pre := hrest.frame_pre
          frame_post := hrest.frame_post
          k_mono := hrest.k_mono
          j_mono := hrest.j_mono
          vis_mono := hrest.vis_mono
          reach := ?_
          heads := ?_
          new_fin := hrest.new_fin }
      · intro w hwvis
        rcases hrest.reach w hwvis with hin | ⟨b, hb, hr⟩
        · exact Or.inl hin
        · exact Or.inr ⟨b, List.mem_cons_of_mem a hb, hr⟩
      · intro b hb
        rcases List.mem_cons.mp hb with rfl | hb2
        · refine hrest.vis_mono ?_
          rw [mem_labelSet]
          exact ⟨hw.1, hw.2, hvw⟩
        · exact hrest.heads b hb2

/-- Main lemma for the recursive DFS visit, by induction on the fuel. -/
lemma go_post (g : EdgeList) (dg : DirectedGraph) (n m : Nat)
    (hH : ∀ a ∈ Finset.Icc 1 m, 1 ≤ g.head.getD a 0 ∧ g.head.getD a 0 ≤ n)
    (hout : ∀ u, outEdges dg u =
      (List.range' 1 m).filter (fun b => g.tail.getD b 0 = u)) :
    ∀ fuel v st, DfsInv g n m st → 1 ≤ v → v ≤ n →
      v ∉ labelSet n st.pre_label →
      (Finset.Icc 1 n \ labelSet n st.pre_label).card ≤ fuel →
      GoPost g n m v st (go g dg fuel v st) := by
  intro fuel
  induction fuel with
  | zero =>
    intro v st inv hv1 hv2 hnv hfuel
    exfalso
    have hvmem : v ∈ Finset.Icc 1 n \ labelSet n st.pre_label :=
      Finset.mem_sdiff.mpr ⟨Finset.mem_Icc.mpr ⟨hv1, hv2⟩, hnv⟩
    have := Finset.card_pos.mpr ⟨v, hvmem⟩
    omega
  | succ fuel ihf =>
    intro v st inv hv1 hv2 hnv hfuel
    rw [go_succ]
    have hpre_v0 : st.pre_label.getD v 0 = 0 := by
      by_contra hc
      exact hnv ((mem_labelSet n st.pre_label v).mpr ⟨hv1, hv2, hc⟩)
    obtain ⟨inv1, hset1⟩ := mark_inv g n m st inv v hv1 hv2 hnv
    have hvicc : v ∈ Finset.Icc 1 n := Finset.mem_Icc.mpr ⟨hv1, hv2⟩
    have hfuel1 : (Finset.Icc 1 n \
        labelSet n (st.pre_label.set v st.k)).card ≤ fuel := by
      have hsd : Finset.Icc 1 n \ labelSet n (st.pre_label.set v st.k) =
          (Finset.Icc 1 n \ labelSet n st.pre_label).erase v := by
        rw [hset1]
        ext x
        simp only [Finset.mem_sdiff, Finset.mem_insert, Finset.mem_erase]
        tauto
      rw [hsd, Finset.card_erase_of_mem (Finset.mem_sdiff.mpr ⟨hvicc, hnv⟩)]
      omega
    have hboundv : ∀ a ∈ outEdges dg v, 1 ≤ a ∧ a ≤ m := by
      intro a hamem
      rw [hout v] at hamem
      have := List.mem_range'_1.mp (List.mem_filter.mp hamem).1
      omega
    have htailv : ∀ a ∈ outEdges dg v, g.tail.getD a 0 = v := by
      intro a hamem
      rw [hout v] at hamem
      exact of_decide_eq_true (List.mem_filter.mp hamem).2
    have hlist := goList_post_of_go g dg n m hH fuel ihf (outEdges dg v)
      ⟨st.pre_label.set v st.k, st.post_label, st.k + 1, st.j⟩ inv1 hboundv hfuel1
    set st2 := goList g dg fuel (outEdges dg v)
      ⟨st.pre_label.set v st.k, st.post_label, st.k + 1, st.j⟩ with hst2
    have hv_vis1 : v ∈ labelSet n (st.pre_label.set v st.k) := by
      rw [hset1]
      exact Finset.mem_insert_self v _
    have hv_vis2 : v ∈ labelSet n st2.pre_label := hlist.vis_mono hv_vis1
    have hv_nfin : v ∉ labelSet n st2.post_label := by
      rw [hlist.new_fin]
      intro hc
      rcases Finset.mem_union.mp hc with hc1 | hc2
      · exact hnv (inv.fin_sub hc1)
      · exact (Finset.mem_sdiff.mp hc2).2 hv_vis1
    have hclv : ∀ w, edgeStep g m v w → w ∈ labelSet n st2.pre_label := by
      rintro w ⟨a, ha1, ha2, hat, hah⟩
      have hamem : a ∈ outEdges dg v := by
        rw [hout v]
        refine List.mem_filter.mpr ⟨List.mem_range'_1.mpr ⟨ha1, by omega⟩, ?_⟩
        exact decide_eq_true hat
      have hres := hlist.heads a hamem
      rw [hah] at hres
      exact hres
    obtain ⟨inv2, hset2⟩ :=
      finish_inv g n m st2 hlist.inv v hv1 hv2 hv_vis2 hv_nfin hclv
    refine
      { inv := inv2
        frame_pre := ?_
        frame_post := ?_
        k_mono := le_trans (Nat.le_succ st.k) hlist.k_mono
        j_mono := le_trans hlist.j_mono (Nat.le_succ st2.j)
        vis_mono := ?_
        pre_v := ?_
        fin_v := ?_
        reach := ?_
        new_fin := ?_ }
    · intro u hu
      have hne : u ≠ v := fun hc => by rw [hc, hpre_v0] at hu; exact hu rfl
      have h1 : (st.pre_label.set v st.k).getD u 0 = st.pre_label.getD u 0 :=
        getD_set_ne st.pre_label v u st.k hne
      show st2.pre_label.getD u 0 = st.pre_label.getD u 0
      rw [hlist.frame_pre u (by rw [h1]; exact hu), h1]
    · intro u hu
      have hne : u ≠ v := by
        intro hc
        subst hc
        exact hnv (inv.fin_sub ((mem_labelSet n st.post_label u).mpr ⟨hv1, hv2, hu⟩))
      show (st2.post_label.set v st2.j).getD u 0 = st.post_label.getD u 0
      rw [getD_set_ne st2.post_label v u st2.j hne]
      exact hlist.frame_post u hu
    · refine Finset.Subset.trans ?_ hlist.vis_mono
      rw [hset1]
      exact Finset.subset_insert v _
    · have h1 : (st.pre_label.set v st.k).getD v 0 = st.k :=
        getD_set_self st.pre_label v st.k (by rw [inv.len_pre]; omega)
      show st2.pre_label.getD v 0 = st.k
      rw [hlist.frame_pre v (by rw [h1, inv.hk]; omega), h1]
    · show v ∈ labelSet n (st2.post_label.set v st2.j)
      rw [hset2]
      exact Finset.mem_insert_self v _
    · intro w hwvis
      rcases hlist.reach w hwvis with hin | ⟨a, hamem, hr⟩
      · rw [hset1] at hin
        rcases Finset.mem_insert.mp hin with rfl | hin2
        · exact Or.inr Relation.ReflTransGen.refl
        · exact Or.inl hin2
      · have ha := hboundv a hamem
        have hstep : edgeStep g m v (g.head.getD a 0) :=
          ⟨a, ha.1, ha.2, htailv a hamem, rfl⟩
        exact Or.inr (Relation.ReflTransGen.head hstep hr)
    · show labelSet n (st2.post_label.set v st2.j) =
        labelSet n st.post_label ∪
          (labelSet n st2.pre_label \ labelSet n st.pre_label)
      rw [hset2, hlist.new_fin, hset1]
      exact insert_union_sdiff_insert _ _ _ v hv_vis2 hnv

/-- Initial DFS state: all labels zero, both counters 1. -/
def dfsInitState (n : Nat) : DfsState :=
  { pre_label := List.replicate (n + 1) 0
    post_label := List.replicate (n + 1) 0
    k := 1
    j := 1 }

/-- The state computed by `dfs` on the graph built from `g`. -/
def dfsRun (g : EdgeList) (n m v0 : Nat) : DfsState :=
  go g (dicomp_incidence_list_construct g n m) n v0 (dfsInitState n)

lemma dfs_eq_dfsRun (g : EdgeList) (n m v0 : Nat) :
    dfs g (dicomp_incidence_list_construct g n m) n v0 =
      { pre_label := (dfsRun g n m v0).pre_label
        post_label := (dfsRun g n m v0).post_label } := rfl

lemma dfs_pre_eq (g : EdgeList) (n m v0 : Nat) :
    (dfs g (dicomp_incidence_list_construct g n m) n v0).pre_label =
      (dfsRun g n m v0).pre_label := rfl

lemma dfs_post_eq (g : EdgeList) (n m v0 : Nat) :
    (dfs g (dicomp_incidence_list_construct g n m) n v0).post_label =
      (dfsRun g n m v0).post_label := rfl

lemma init_inv (g : EdgeList) (n m : Nat) : DfsInv g n m (dfsInitState n) := by
  refine ⟨by simp [dfsInitState], by simp [dfsInitState], ?_, ?_, ?_, ?_, ?_, ?_, ?_, ?_⟩ <;>
    simp [dfsInitState, labelSet_replicate]

/-- On consistent input, the materialised out-edge chains of the built graph
are the ascending per-tail edge lists. -/
lemma dicomp_outEdges (g : EdgeList) (n m : Nat) (h : Consistent g n m) :
    ∀ u, outEdges (dicomp_incidence_list_construct g n m) u =
      (List.range' 1 m).filter (fun b => g.tail.getD b 0 = u) := by
  intro u
  have hi := dicomp_inv g n m h
  unfold outEdges
  rw [hi.len_en]
  exact dicomp_forward_chain g n m h u (m + 1) (by omega)

/-- The full postcondition of the DFS run performed by `dfs`. -/
lemma dfs_run_post (g : EdgeList) (n m v0 : Nat) (h : Consistent g n m)
    (hv1 : 1 ≤ v0) (hv2 : v0 ≤ n) :
    GoPost g n m v0 (dfsInitState n) (dfsRun g n m v0) := by
  refine go_post g _ n m h.2.2.2 (dicomp_outEdges g n m h) n v0 _
    (init_inv g n m) hv1 hv2 ?_ ?_
  · show v0 ∉ labelSet n (List.replicate (n + 1) 0)
    rw [labelSet_replicate]
    exact Finset.not_mem_empty v0
  · show (Finset.Icc 1 n \ labelSet n (List.replicate (n + 1) 0)).card ≤ n
    rw [labelSet_replicate, Finset.sdiff_empty, Nat.card_Icc]
    omega

/-- Characterisation of the run's discovered set: exactly the vertices of
`1..=n` reachable from the start vertex; moreover finished = discovered. -/
lemma dfs_vis_char (g : EdgeList) (n m v0 : Nat) (h : Consistent g n m)
    (hv1 : 1 ≤ v0) (hv2 : v0 ≤ n) :
    (∀ w, w ∈ labelSet n (dfsRun g n m v0).pre_label ↔
      (1 ≤ w ∧ w ≤ n ∧ Relation.ReflTransGen (edgeStep g m) v0 w)) ∧
    labelSet n (dfsRun g n m v0).post_label =
      labelSet n (dfsRun g n m v0).pre_label := by
  have hpost := dfs_run_post g n m v0 h hv1 hv2
  have hfin : labelSet n (dfsRun g n m v0).post_label =
      labelSet n (dfsRun g n m v0).pre_label := by
    rw [hpost.new_fin]
    show labelSet n (List.replicate (n + 1) 0) ∪
        (labelSet n (dfsRun g n m v0).pre_label \
          labelSet n (List.replicate (n + 1) 0)) = _
    rw [labelSet_replicate, Finset.sdiff_empty, Finset.empty_union]
  have hv0vis : v0 ∈ labelSet n (dfsRun g n m v0).pre_label := by
    rw [mem_labelSet]
    refine ⟨hv1, hv2, ?_⟩
    rw [hpost.pre_v]
    show (1 : Nat) ≠ 0
    omega
  have hreach : ∀ w, Relation.ReflTransGen (edgeStep g m) v0 w →
      w ∈ labelSet n (dfsRun g n m v0).pre_label := by
    intro w hr
    induction hr with
    | refl => exact hv0vis
    | @tail b c hab hstep ihw =>
      have hbfin : b ∈ labelSet n (dfsRun g n m v0).post_label := by
        rw [hfin]
        exact ihw
      exact hpost.inv.closed b hbfin c hstep
  refine ⟨?_, hfin⟩
  intro w
  constructor
  · intro hw
    have hb := (mem_labelSet n _ w).mp hw
    refine ⟨hb.1, hb.2.1, ?_⟩
    rcases hpost.reach w hw with hin | hr
    · rw [show labelSet n (dfsInitState n).pre_label =
          labelSet n (List.replicate (n + 1) 0) from rfl, labelSet_replicate] at hin
      exact absurd hin (Finset.not_mem_empty w)
    · exact hr
  · rintro ⟨-, -, hr⟩
    exact hreach w hr

/-- C3: for consistent input and a start vertex `v0 ∈ 1..=n`, `dfs` on the
built graph gives every vertex reachable from `v0` along forward edges
nonzero pre- and post-labels, and every unreachable vertex of `1..=n` pre-
and post-label 0. -/
theorem dfs_reach_labels (g : EdgeList) (n m v0 : Nat) (h : Consistent g n m)
    (hv1 : 1 ≤ v0) (hv2 : v0 ≤ n) :
    ∀ w, 1 ≤ w → w ≤ n →
      (Relation.ReflTransGen (edgeStep g m) v0 w →
        (dfs g (dicomp_incidence_list_construct g n m) n v0).pre_label.getD w 0 ≠ 0 ∧
          (dfs g (dicomp_incidence_list_construct g n m) n v0).post_label.getD w 0 ≠ 0) ∧
      (¬ Relation.ReflTransGen (edgeStep g m) v0 w →
        (dfs g (dicomp_incidence_list_construct g n m) n v0).pre_label.getD w 0 = 0 ∧
          (dfs g (dicomp_incidence_list_construct g n m) n v0).post_label.getD w 0 = 0) := by
  obtain ⟨hchar, hfin⟩ := dfs_vis_char g n m v0 h hv1 hv2
  intro w hw1 hw2
  constructor
  · intro hr
    have hvis : w ∈ labelSet n (dfsRun g n m v0).pre_label :=
      (hchar w).mpr ⟨hw1, hw2, hr⟩
    have hfinw : w ∈ labelSet n (dfsRun g n m v0).post_label := by
      rw [hfin]
      exact hvis
    exact ⟨((mem_labelSet _ _ _).mp hvis).2.2, ((mem_labelSet _ _ _).mp hfinw).2.2⟩
  · intro hnr
    constructor
    · by_contra hc
      exact hnr ((hchar w).mp ((mem_labelSet _ _ _).mpr ⟨hw1, hw2, fun hz => hc hz⟩)).2.2
    · by_contra hc
      have hmemf : w ∈ labelSet n (dfsRun g n m v0).post_label :=
        (mem_labelSet _ _ _).mpr ⟨hw1, hw2, fun hz => hc hz⟩
      rw [hfin] at hmemf
      exact hnr ((hchar w).mp hmemf).2.2

/-- Witness for C3 on the linear-chain test graph. -/
theorem dfs_reach_labels_witness :
    (Consistent lineGraph 3 2 ∧ 1 ≤ 1 ∧ 1 ≤ 3) ∧
      (∀ w, 1 ≤ w → w ≤ 3 →
        (Relation.ReflTransGen (edgeStep lineGraph 2) 1 w →
          (dfs lineGraph (dicomp_incidence_list_construct lineGraph 3 2) 3
            1).pre_label.getD w 0 ≠ 0 ∧
            (dfs lineGraph (dicomp_incidence_list_construct lineGraph 3 2) 3
              1).post_label.getD w 0 ≠ 0) ∧
        (¬ Relation.ReflTransGen (edgeStep lineGraph 2) 1 w →
          (dfs lineGraph (dicomp_incidence_list_construct lineGraph 3 2) 3
            1).pre_label.getD w 0 = 0 ∧
            (dfs lineGraph (dicomp_incidence_list_construct lineGraph 3 2) 3
              1).post_label.getD w 0 = 0)) :=
  ⟨⟨by decide, by decide, by decide⟩,
    dfs_reach_labels lineGraph 3 2 1 (by decide) (by decide) (by decide)⟩

lemma image_eq_Icc_of_bound (S : Finset Nat) (f : Nat → Nat) (K : Nat)
    (hK : K = S.card)
    (hlb : ∀ u ∈ S, 1 ≤ f u) (hub : ∀ u ∈ S, f u ≤ K)
    (hinj : ∀ u ∈ S, ∀ w ∈ S, f u = f w → u = w) :
    S.image f = Finset.Icc 1 K := by
  have hinj2 : Set.InjOn f ↑S := fun u hu w hw huw =>
    hinj u (Finset.mem_coe.mp hu) w (Finset.mem_coe.mp hw) huw
  refine Finset.eq_of_subset_of_card_le ?_ ?_
  · intro x hx
    obtain ⟨u, hu, rfl⟩ := Finset.mem_image.mp hx
    exact Finset.mem_Icc.mpr ⟨hlb u hu, hub u hu⟩
  · rw [Nat.card_Icc, Finset.card_image_of_injOn hinj2]
    omega

/-- C4: if the run reaches `K` vertices, the pre-labels over the reached set
are exactly `{1, ..., K}` and so are the post-labels; every unreached
vertex of `1..=n` has both labels 0. The reached set is the set of
vertices of `1..=n` with nonzero pre-label, `labelSet`. -/
theorem dfs_label_bijection (g : EdgeList) (n m v0 : Nat) (h : Consistent g n m)
    (hv1 : 1 ≤ v0) (hv2 : v0 ≤ n) :
    (labelSet n (dfs g (dicomp_incidence_list_construct g n m) n v0).pre_label).image
        (fun w => (dfs g (dicomp_incidence_list_construct g n m) n v0).pre_label.getD w 0) =
      Finset.Icc 1
        (labelSet n (dfs g (dicomp_incidence_list_construct g n m) n v0).pre_label).card ∧
    (labelSet n (dfs g (dicomp_incidence_list_construct g n m) n v0).pre_label).image
        (fun w => (dfs g (dicomp_incidence_list_construct g n m) n v0).post_label.getD w 0) =
      Finset.Icc 1
        (labelSet n (dfs g (dicomp_incidence_list_construct g n m) n v0).pre_label).card ∧
    (∀ w, 1 ≤ w → w ≤ n →
      w ∉ labelSet n (dfs g (dicomp_incidence_list_construct g n m) n v0).pre_label →
      (dfs g (dicomp_incidence_list_construct g n m) n v0).pre_label.getD w 0 = 0 ∧
        (dfs g (dicomp_incidence_list_construct g n m) n v0).post_label.getD w 0 = 0) := by
  have hpost := dfs_run_post g n m v0 h hv1 hv2
  obtain ⟨-, hfin⟩ := dfs_vis_char g n m v0 h hv1 hv2
  have inv := hpost.inv
  simp only [dfs_pre_eq, dfs_post_eq]
  have hcards : (labelSet n (dfsRun g n m v0).post_label).card =
      (labelSet n (dfsRun g n m v0).pre_label).card := by
    rw [hfin]
  refine ⟨?_, ?_, ?_⟩
  · refine image_eq_Icc_of_bound _ _ _ rfl ?_ ?_ ?_
    · intro u hu
      have := ((mem_labelSet _ _ _).mp hu).2.2
      omega
    · intro u hu
      have h1 := inv.pre_lt u hu
      have h2 := inv.hk
      omega
    · exact inv.pre_inj
  · refine image_eq_Icc_of_bound _ _ _ rfl ?_ ?_ ?_
    · intro u hu
      rw [← hfin] at hu
      have := ((mem_labelSet _ _ _).mp hu).2.2
      omega
    · intro u hu
      rw [← hfin] at hu
      have h1 := inv.post_lt u hu
      have h2 := inv.hj
      omega
    · intro u hu w hw
      rw [← hfin] at hu hw
      exact inv.post_inj u hu w hw
  · intro w hw1 hw2 hnw
    constructor
    · by_contra hc
      exact hnw ((mem_labelSet _ _ _).mpr ⟨hw1, hw2, fun hz => hc hz⟩)
    · by_contra hc
      have hmemf : w ∈ labelSet n (dfsRun g n m v0).post_label :=
        (mem_labelSet _ _ _).mpr ⟨hw1, hw2, fun hz => hc hz⟩
      rw [hfin] at hmemf
      exact hnw hmemf

/-- Witness for C4 on the linear-chain test graph. -/
theorem dfs_label_bijection_witness :
    (Consistent lineGraph 3 2 ∧ 1 ≤ 1 ∧ 1 ≤ 3) ∧
      ((labelSet 3 (dfs lineGraph (dicomp_incidence_list_construct lineGraph 3 2) 3
            1).pre_label).image
          (fun w => (dfs lineGraph (dicomp_incidence_list_construct lineGraph 3 2) 3
            1).pre_label.getD w 0) =
        Finset.Icc 1
          (labelSet 3 (dfs lineGraph (dicomp_incidence_list_construct lineGraph 3 2) 3
            1).pre_label).card ∧
      (labelSet 3 (dfs lineGraph (dicomp_incidence_list_construct lineGraph 3 2) 3
            1).pre_label).image
          (fun w => (dfs lineGraph (dicomp_incidence_list_construct lineGraph 3 2) 3
            1).post_label.getD w 0) =
        Finset.Icc 1
          (labelSet 3 (dfs lineGraph (dicomp_incidence_list_construct lineGraph 3 2) 3
            1).pre_label).card ∧
      (∀ w, 1 ≤ w → w ≤ 3 →
        w ∉ labelSet 3 (dfs lineGraph (dicomp_incidence_list_construct lineGraph 3 2) 3
          1).pre_label →
        (dfs lineGraph (dicomp_incidence_list_construct lineGraph 3 2) 3
          1).pre_label.getD w 0 = 0 ∧
          (dfs lineGraph (dicomp_incidence_list_construct lineGraph 3 2) 3
            1).post_label.getD w 0 = 0)) :=
  ⟨⟨by decide, by decide, by decide⟩,
    dfs_label_bijection lineGraph 3 2 1 (by decide) (by decide) (by decide)⟩

/-- C6: determinism and tie-break order. Two `dfs` runs on graphs built
separately from the same edge list return identical label arrays, and the
sequence of edges `go` examines at a vertex `v` is the forward chain
`outEdges`, which on consistent input is the ascending original edge-id
order of the edges with tail `v`. -/
theorem dfs_deterministic (g : EdgeList) (n m v0 : Nat) (h : Consistent g n m)
    (_hv1 : 1 ≤ v0) (_hv2 : v0 ≤ n) :
    (∀ dg1 dg2, dg1 = dicomp_incidence_list_construct g n m →
      dg2 = dicomp_incidence_list_construct g n m →
      (dfs g dg1 n v0).pre_label = (dfs g dg2 n v0).pre_label ∧
        (dfs g dg1 n v0).post_label = (dfs g dg2 n v0).post_label) ∧
    (∀ v, 1 ≤ v → v ≤ n →
      outEdges (dicomp_incidence_list_construct g n m) v =
        (List.range' 1 m).filter (fun a => g.tail.getD a 0 = v)) := by
  refine ⟨?_, ?_⟩
  · rintro dg1 dg2 rfl rfl
    exact ⟨rfl, rfl⟩
  · intro v _ _
    exact dicomp_outEdges g n m h v

/-- Witness for C6 on the linear-chain test graph. -/
theorem dfs_deterministic_witness :
    (Consistent lineGraph 3 2 ∧ 1 ≤ 1 ∧ 1 ≤ 3) ∧
      ((∀ dg1 dg2, dg1 = dicomp_incidence_list_construct lineGraph 3 2 →
        dg2 = dicomp_incidence_list_construct lineGraph 3 2 →
        (dfs lineGraph dg1 3 1).pre_label = (dfs lineGraph dg2 3 1).pre_label ∧
          (dfs lineGraph dg1 3 1).post_label = (dfs lineGraph dg2 3 1).post_label) ∧
      (∀ v, 1 ≤ v → v ≤ 3 →
        outEdges (dicomp_incidence_list_construct lineGraph 3 2) v =
          (List.range' 1 2).filter (fun a => lineGraph.tail.getD a 0 = v))) :=
  ⟨⟨by decide, by decide, by decide⟩,
    dfs_deterministic lineGraph 3 2 1 (by decide) (by decide) (by decide)⟩

/-- Fuel stability for the edge-walking loop, assuming it for the visit at
the same fuel. -/
lemma goList_fuel_stable (g : EdgeList) (dg : DirectedGraph) (n m : Nat)
    (hH : ∀ a ∈ Finset.Icc 1 m, 1 ≤ g.head.getD a 0 ∧ g.head.getD a 0 ≤ n)
    (hout : ∀ u, outEdges dg u =
      (List.range' 1 m).filter (fun b => g.tail.getD b 0 = u))
    (f : Nat)
    (IH : ∀ v st, DfsInv g n m st → 1 ≤ v → v ≤ n →
      v ∉ labelSet n st.pre_label →
      (Finset.Icc 1 n \ labelSet n st.pre_label).card ≤ f →
      ∀ f2, f ≤ f2 → go g dg f2 v st = go g dg f v st) :
    ∀ l st, DfsInv g n m st → (∀ a ∈ l, 1 ≤ a ∧ a ≤ m) →
      (Finset.Icc 1 n \ labelSet n st.pre_label).card ≤ f →
      ∀ f2, f ≤ f2 → goList g dg f2 l st = goList g dg f l st := by
  intro l
  induction l with
  | nil =>
    intro st _ _ _ f2 _
    rw [goList_nil, goList_nil]
  | cons a rest ih =>
    intro st inv hbound hfuel f2 hf2
    rw [goList_cons, goList_cons]
    by_cases hvw : st.pre_label.getD (g.head.getD a 0) 0 = 0
    · rw [if_pos hvw, if_pos hvw]
      have ha := hbound a (List.mem_cons_self a rest)
      have hw := hH a (Finset.mem_Icc.mpr ha)
      have hnv : g.head.getD a 0 ∉ labelSet n st.pre_label := by
        rw [mem_labelSet]
        tauto
      rw [IH (g.head.getD a 0) st inv hw.1 hw.2 hnv hfuel f2 hf2]
      have hpost := go_post g dg n m hH hout f (g.head.getD a 0) st inv
        hw.1 hw.2 hnv hfuel
      refine ih _ hpost.inv (fun b hb => hbound b (List.mem_cons_of_mem a hb)) ?_ f2 hf2
      exact le_trans (Finset.card_le_card
        (Finset.sdiff_subset_sdiff (Finset.Subset.refl _) hpost.vis_mono)) hfuel
    · rw [if_neg hvw, if_neg hvw]
      exact ih st inv (fun b hb => hbound b (List.mem_cons_of_mem a hb)) hfuel f2 hf2

/-- Fuel stability for the recursive visit: any fuel of at least the number
of undiscovered vertices produces the same run, i.e. the recursion depth
needed is bounded and the unbounded Rust recursion terminates. -/
lemma go_fuel_stable (g : EdgeList) (dg : DirectedGraph) (n m : Nat)
    (hH : ∀ a ∈ Finset.Icc 1 m, 1 ≤ g.head.getD a 0 ∧ g.head.getD a 0 ≤ n)
    (hout : ∀ u, outEdges dg u =
      (List.range' 1 m).filter (fun b => g.tail.getD b 0 = u)) :
    ∀ f v st, DfsInv g n m st → 1 ≤ v → v ≤ n →
      v ∉ labelSet n st.pre_label →
      (Finset.Icc 1 n \ labelSet n st.pre_label).card ≤ f →
      ∀ f2, f ≤ f2 → go g dg f2 v st = go g dg f v st := by
  intro f
  induction f with
  | zero =>
    intro v st inv hv1 hv2 hnv hfuel f2 _
    exfalso
    have hvmem : v ∈ Finset.Icc 1 n \ labelSet n st.pre_label :=
      Finset.mem_sdiff.mpr ⟨Finset.mem_Icc.mpr ⟨hv1, hv2⟩, hnv⟩
    have := Finset.card_pos.mpr ⟨v, hvmem⟩
    omega
  | succ f ihf =>
    intro v st inv hv1 hv2 hnv hfuel f2 hf2
    obtain ⟨f2p, rfl⟩ : ∃ f2p, f2 = f2p + 1 := ⟨f2 - 1, by omega⟩
    rw [go_succ, go_succ]
    obtain ⟨inv1, hset1⟩ := mark_inv g n m st inv v hv1 hv2 hnv
    have hvicc : v ∈ Finset.Icc 1 n := Finset.mem_Icc.mpr ⟨hv1, hv2⟩
    have hfuel1 : (Finset.Icc 1 n \
        labelSet n (st.pre_label.set v st.k)).card ≤ f := by
      have hsd : Finset.Icc 1 n \ labelSet n (st.pre_label.set v st.k) =
          (Finset.Icc 1 n \ labelSet n st.pre_label).erase v := by
        rw [hset1]
        ext x
        simp only [Finset.mem_sdiff, Finset.mem_insert, Finset.mem_erase]
        tauto
      rw [hsd, Finset.card_erase_of_mem (Finset.mem_sdiff.mpr ⟨hvicc, hnv⟩)]
      omega
    have hboundv : ∀ a ∈ outEdges dg v, 1 ≤ a ∧ a ≤ m := by
      intro a hamem
      rw [hout v] at hamem
      have := List.mem_range'_1.mp (List.mem_filter.mp hamem).1
      omega
    rw [goList_fuel_stable g dg n m hH hout f ihf (outEdges dg v)
      ⟨st.pre_label.set v st.k, st.post_label, st.k + 1, st.j⟩ inv1 hboundv
      hfuel1 f2p (by omega)]

/-- C7: termination of `dfs` on the built graph. The recursion needs depth
at most `n`: any fuel of at least `n` yields the identical run (so the
unbounded Rust recursion reaches its base cases). Each vertex is visited
at most once — distinct reached vertices carry distinct pre-labels — and
each walk of a vertex's chain examines each edge at most once (the
out-edge list contains no duplicates). -/
theorem dfs_terminates (g : EdgeList) (n m v0 : Nat) (h : Consistent g n m)
    (hv1 : 1 ≤ v0) (hv2 : v0 ≤ n) :
    (∀ fuel, n ≤ fuel →
      go g (dicomp_incidence_list_construct g n m) fuel v0 (dfsInitState n) =
        go g (dicomp_incidence_list_construct g n m) n v0 (dfsInitState n)) ∧
    (∀ v, (outEdges (dicomp_incidence_list_construct g n m) v).Nodup) ∧
    (∀ u ∈ labelSet n (dfs g (dicomp_incidence_list_construct g n m) n v0).pre_label,
      ∀ w ∈ labelSet n (dfs g (dicomp_incidence_list_construct g n m) n v0).pre_label,
      (dfs g (dicomp_incidence_list_construct g n m) n v0).pre_label.getD u 0 =
        (dfs g (dicomp_incidence_list_construct g n m) n v0).pre_label.getD w 0 →
      u = w) := by
  refine ⟨?_, ?_, ?_⟩
  · intro fuel hfuel
    refine go_fuel_stable g _ n m h.2.2.2 (dicomp_outEdges g n m h) n v0
      (dfsInitState n) (init_inv g n m) hv1 hv2 ?_ ?_ fuel hfuel
    · show v0 ∉ labelSet n (List.replicate (n + 1) 0)
      rw [labelSet_replicate]
      exact Finset.not_mem_empty v0
    · show (Finset.Icc 1 n \ labelSet n (List.replicate (n + 1) 0)).card ≤ n
      rw [labelSet_replicate, Finset.sdiff_empty, Nat.card_Icc]
      omega
  · intro v
    rw [dicomp_outEdges g n m h v]
    exact (List.nodup_range' 1 m).filter _
  · have hpost := dfs_run_post g n m v0 h hv1 hv2
    simp only [dfs_pre_eq]
    exact hpost.inv.pre_inj

/-- Witness for C7 on the linear-chain test graph. -/
theorem dfs_terminates_witness :
    (Consistent lineGraph 3 2 ∧ 1 ≤ 1 ∧ 1 ≤ 3) ∧
      ((∀ fuel, 3 ≤ fuel →
        go lineGraph (dicomp_incidence_list_construct lineGraph 3 2) fuel 1
            (dfsInitState 3) =
          go lineGraph (dicomp_incidence_list_construct lineGraph 3 2) 3 1
            (dfsInitState 3)) ∧
      (∀ v, (outEdges (dicomp_incidence_list_construct lineGraph 3 2) v).Nodup) ∧
      (∀ u ∈ labelSet 3
          (dfs lineGraph (dicomp_incidence_list_construct lineGraph 3 2) 3 1).pre_label,
        ∀ w ∈ labelSet 3
          (dfs lineGraph (dicomp_incidence_list_construct lineGraph 3 2) 3 1).pre_label,
        (dfs lineGraph (dicomp_incidence_list_construct lineGraph 3 2) 3
            1).pre_label.getD u 0 =
          (dfs lineGraph (dicomp_incidence_list_construct lineGraph 3 2) 3
            1).pre_label.getD w 0 →
        u = w)) :=
  ⟨⟨by decide, by decide, by decide⟩,
    dfs_terminates lineGraph 3 2 1 (by decide) (by decide) (by decide)⟩

mutual

/-- Instrumented copy of `go` that additionally records the DFS-tree arcs:
one pair (parent, child) for every recursive call performed. The state
component is proven equal to `go`'s result (`goA_fst`), so the arcs are a
faithful record of the recursion structure of `dfs`. -/
def goA (g : EdgeList) (dg : DirectedGraph) :
    Nat → Nat → DfsState → DfsState × List (Nat × Nat)
  | 0, _, st => (st, [])
  | fuel + 1, v, st =>
    let st1 : DfsState :=
      { st with pre_label := st.pre_label.set v st.k, k := st.k + 1 }
    let r2 := goListA g dg fuel v (outEdges dg v) st1
    ({ r2.1 with post_label := r2.1.post_label.set v r2.1.j, j := r2.1.j + 1 }, r2.2)
termination_by fuel _ _ => (fuel, 0)

/-- Instrumented copy of `goList` carrying the parent vertex `v`: records
the arc `(v, w)` whenever it recurses into an undiscovered head `w`. -/
def goListA (g : EdgeList) (dg : DirectedGraph) (fuel v : Nat) :
    List Nat → DfsState → DfsState × List (Nat × Nat)
  | [], st => (st, [])
  | a :: rest, st =>
    let w := g.head.getD a 0
    if st.pre_label.getD w 0 = 0 then
      let r1 := goA g dg fuel w st
      let r2 := goListA g dg fuel v rest r1.1
      (r2.1, (v, w) :: (r1.2 ++ r2.2))
    else goListA g dg fuel v rest st
termination_by l _ => (fuel, l.length + 1)

end

lemma goA_succ (g : EdgeList) (dg : DirectedGraph) (fuel v : Nat) (st : DfsState) :
    goA g dg (fuel + 1) v st =
      ({ pre_label := (goListA g dg fuel v (outEdges dg v)
            ⟨st.pre_label.set v st.k, st.post_label, st.k + 1, st.j⟩).1.pre_label
         post_label := (goListA g dg fuel v (outEdges dg v)
            ⟨st.pre_label.set v st.k, st.post_label, st.k + 1, st.j⟩).1.post_label.set v
              (goListA g dg fuel v (outEdges dg v)
                ⟨st.pre_label.set v st.k, st.post_label, st.k + 1, st.j⟩).1.j
         k := (goListA g dg fuel v (outEdges dg v)
            ⟨st.pre_label.set v st.k, st.post_label, st.k + 1, st.j⟩).1.k
         j := (goListA g dg fuel v (outEdges dg v)
            ⟨st.pre_label.set v st.k, st.post_label, st.k + 1, st.j⟩).1.j + 1 },
        (goListA g dg fuel v (outEdges dg v)
          ⟨st.pre_label.set v st.k, st.post_label, st.k + 1, st.j⟩).2) := by
  rw [goA]

lemma goListA_nil (g : EdgeList) (dg : DirectedGraph) (fuel v : Nat) (st : DfsState) :
    goListA g dg fuel v [] st = (st, []) := by
  rw [goListA]

lemma goListA_cons (g : EdgeList) (dg : DirectedGraph) (fuel v a : Nat)
    (rest : List Nat) (st : DfsState) :
    goListA g dg fuel v (a :: rest) st =
      if st.pre_label.getD (g.head.getD a 0) 0 = 0 then
        ((goListA g dg fuel v rest (goA g dg fuel (g.head.getD a 0) st).1).1,
          (v, g.head.getD a 0) ::
            ((goA g dg fuel (g.head.getD a 0) st).2 ++
              (goListA g dg fuel v rest (goA g dg fuel (g.head.getD a 0) st).1).2))
      else goListA g dg fuel v rest st := by
  rw [goListA]

lemma goListA_fst_of (g : EdgeList) (dg : DirectedGraph) (fuel : Nat)
    (IH : ∀ v st, (goA g dg fuel v st).1 = go g dg fuel v st) :
    ∀ v l st, (goListA g dg fuel v l st).1 = goList g dg fuel l st := by
  intro v l
  induction l with
  | nil =>
    intro st
    rw [goListA_nil, goList_nil]
  | cons a rest ih =>
    intro st
    rw [goListA_cons, goList_cons]
    by_cases hvw : st.pre_label.getD (g.head.getD a 0) 0 = 0
    · rw [if_pos hvw, if_pos hvw, IH (g.head.getD a 0) st]
      exact ih _
    · rw [if_neg hvw, if_neg hvw]
      exact ih st

/-- The state component of the instrumented run equals the plain run. -/
lemma goA_fst (g : EdgeList) (dg : DirectedGraph) :
    ∀ fuel v st, (goA g dg fuel v st).1 = go g dg fuel v st := by
  intro fuel
  induction fuel with
  | zero =>
    intro v st
    rw [goA, go]
  | succ fuel ihf =>
    intro v st
    rw [goA_succ, go_succ,
      goListA_fst_of g dg fuel ihf v (outEdges dg v)
        ⟨st.pre_label.set v st.k, st.post_label, st.k + 1, st.j⟩]

/-- Correctness of a recorded DFS-tree arc at a state: both endpoints are
vertices of `1..=n` with assigned labels, the parent's pre-label is
strictly smaller and its post-label strictly larger. -/
def ArcOK (n : Nat) (st : DfsState) (p c : Nat) : Prop :=
  1 ≤ p ∧ p ≤ n ∧ 1 ≤ c ∧ c ≤ n ∧
    st.pre_label.getD p 0 ≠ 0 ∧ st.pre_label.getD c 0 ≠ 0 ∧
    st.pre_label.getD p 0 < st.pre_label.getD c 0 ∧
    st.post_label.getD p 0 ≠ 0 ∧ st.post_label.getD c 0 ≠ 0 ∧
    st.post_label.getD c 0 < st.post_label.getD p 0

lemma ArcOK_mono (n : Nat) (st st' : DfsState) (p c : Nat)
    (hfp : ∀ u, st.pre_label.getD u 0 ≠ 0 →
      st'.pre_label.getD u 0 = st.pre_label.getD u 0)
    (hfq : ∀ u, st.post_label.getD u 0 ≠ 0 →
      st'.post_label.getD u 0 = st.post_label.getD u 0)
    (h : ArcOK n st p c) : ArcOK n st' p c := by
  obtain ⟨h1, h2, h3, h4, h5, h6, h7, h8, h9, h10⟩ := h
  refine ⟨h1, h2, h3, h4, ?_, ?_, ?_, ?_, ?_, ?_⟩
  · rw [hfp p h5]
    exact h5
  · rw [hfp c h6]
    exact h6
  · rw [hfp p h5, hfp c h6]
    exact h7
  · rw [hfq p h8]
    exact h8
  · rw [hfq c h9]
    exact h9
  · rw [hfq p h8, hfq c h9]
    exact h10

/-- Partial arc correctness during the walk of the parent `v`'s chain: arcs
whose parent is `v` lack only `v`'s post-label, still unassigned. -/
def PArcOK (n v : Nat) (st : DfsState) (p c : Nat) : Prop :=
  (p = v ∧ 1 ≤ c ∧ c ≤ n ∧
    st.pre_label.getD v 0 ≠ 0 ∧ st.pre_label.getD c 0 ≠ 0 ∧
    st.pre_label.getD v 0 < st.pre_label.getD c 0 ∧
    st.post_label.getD c 0 ≠ 0) ∨ ArcOK n st p c

/-- Arc correctness for the instrumented chain walk, assuming it for the
instrumented visit at the same fuel. -/
lemma goListA_arcs_of (g : EdgeList) (dg : DirectedGraph) (n m : Nat)
    (hH : ∀ a ∈ Finset.Icc 1 m, 1 ≤ g.head.getD a 0 ∧ g.head.getD a 0 ≤ n)
    (hout : ∀ u, outEdges dg u =
      (List.range' 1 m).filter (fun b => g.tail.getD b 0 = u))
    (fuel : Nat)
    (IHarc : ∀ v st, DfsInv g n m st → 1 ≤ v → v ≤ n →
      v ∉ labelSet n st.pre_label →
      (Finset.Icc 1 n \ labelSet n st.pre_label).card ≤ fuel →
      ∀ pc ∈ (goA g dg fuel v st).2,
        ArcOK n (go g dg fuel v st) pc.1 pc.2) :
    ∀ v l st, DfsInv g n m st → 1 ≤ v → v ≤ n →
      (∀ a ∈ l, 1 ≤ a ∧ a ≤ m) →
      (Finset.Icc 1 n \ labelSet n st.pre_label).card ≤ fuel →
      st.pre_label.getD v 0 ≠ 0 →
      ∀ pc ∈ (goListA g dg fuel v l st).2,
        PArcOK n v (goList g dg fuel l st) pc.1 pc.2 := by
  intro v l
  induction l with
  | nil =>
    intro st _ _ _ _ _ _ pc hpc
    rw [goListA_nil] at hpc
    exact absurd hpc (List.not_mem_nil pc)
  | cons a rest ih =>
    intro st inv hv1 hv2 hbound hfuel hvpre pc hpc
    have ha := hbound a (List.mem_cons_self a rest)
    have hw := hH a (Finset.mem_Icc.mpr ha)
    rw [goListA_cons] at hpc
    rw [goList_cons]
    by_cases hvw : st.pre_label.getD (g.head.getD a 0) 0 = 0
    · rw [if_pos hvw] at hpc
      rw [if_pos hvw]
      have hnv : g.head.getD a 0 ∉ labelSet n st.pre_label := by
        rw [mem_labelSet]
        tauto
      have hpost := go_post g dg n m hH hout fuel (g.head.getD a 0) st inv
        hw.1 hw.2 hnv hfuel
      have hsub := IHarc (g.head.getD a 0) st inv hw.1 hw.2 hnv hfuel
      rw [goA_fst g dg fuel (g.head.getD a 0) st] at hpc
      have hfuel2 : (Finset.Icc 1 n \
          labelSet n (go g dg fuel (g.head.getD a 0) st).pre_label).card ≤ fuel :=
        le_trans (Finset.card_le_card
          (Finset.sdiff_subset_sdiff (Finset.Subset.refl _) hpost.vis_mono)) hfuel
      have hvpre2 : (go g dg fuel (g.head.getD a 0) st).pre_label.getD v 0 ≠ 0 := by
        rw [hpost.frame_pre v hvpre]
        exact hvpre
      have hrest := goList_post_of_go g dg n m hH fuel
        (go_post g dg n m hH hout fuel) rest (go g dg fuel (g.head.getD a 0) st)
        hpost.inv (fun b hb => hbound b (List.mem_cons_of_mem a hb)) hfuel2
      rcases List.mem_cons.mp hpc with rfl | hpc2
      · -- the arc (v, w) recorded at this step
        refine Or.inl ⟨rfl, hw.1, hw.2, ?_, ?_, ?_, ?_⟩
        · rw [hrest.frame_pre v hvpre2]
          exact hvpre2
        · have hwpre : (go g dg fuel (g.head.getD a 0) st).pre_label.getD
              (g.head.getD a 0) 0 ≠ 0 := by
            rw [hpost.pre_v, inv.hk]
            omega
          rw [hrest.frame_pre _ hwpre]
          exact hwpre
        · have hvlt : st.pre_label.getD v 0 < st.k :=
            inv.pre_lt v ((mem_labelSet n st.pre_label v).mpr ⟨hv1, hv2, hvpre⟩)
          have hwpre : (go g dg fuel (g.head.getD a 0) st).pre_label.getD
              (g.head.getD a 0) 0 = st.k := hpost.pre_v
          have hwne : (go g dg fuel (g.head.getD a 0) st).pre_label.getD
              (g.head.getD a 0) 0 ≠ 0 := by
            rw [hwpre, inv.hk]
            omega
          rw [hrest.frame_pre v hvpre2, hrest.frame_pre _ hwne,
            hpost.frame_pre v hvpre, hwpre]
          exact hvlt
        · have hwfin : (go g dg fuel (g.head.getD a 0) st).post_label.getD
              (g.head.getD a 0) 0 ≠ 0 :=
            ((mem_labelSet _ _ _).mp hpost.fin_v).2.2
          rw [hrest.frame_post _ hwfin]
          exact hwfin
      · rcases List.mem_append.mp hpc2 with hin1 | hin2
        · -- an arc of the recursive visit: fully correct there, frozen after
          refine Or.inr (ArcOK_mono n _ _ pc.1 pc.2 hrest.frame_pre
            hrest.frame_post ?_)
          exact hsub pc hin1
        · -- an arc of the remaining walk
          exact ih _ hpost.inv hv1 hv2
            (fun b hb => hbound b (List.mem_cons_of_mem a hb)) hfuel2 hvpre2 pc hin2
    · rw [if_neg hvw] at hpc
      rw [if_neg hvw]
      exact ih st inv hv1 hv2
        (fun b hb => hbound b (List.mem_cons_of_mem a hb)) hfuel hvpre pc hpc

/-- Every arc recorded by the instrumented DFS visit satisfies the strict
pre/post nesting in the resulting state. -/
lemma goA_arcs (g : EdgeList) (dg : DirectedGraph) (n m : Nat)
    (hH : ∀ a ∈ Finset.Icc 1 m, 1 ≤ g.head.getD a 0 ∧ g.head.getD a 0 ≤ n)
    (hout : ∀ u, outEdges dg u =
      (List.range' 1 m).filter (fun b => g.tail.getD b 0 = u)) :
    ∀ fuel v st, DfsInv g n m st → 1 ≤ v → v ≤ n →
      v ∉ labelSet n st.pre_label →
      (Finset.Icc 1 n \ labelSet n st.pre_label).card ≤ fuel →
      ∀ pc ∈ (goA g dg fuel v st).2,
        ArcOK n (go g dg fuel v st) pc.1 pc.2 := by
  intro fuel
  induction fuel with
  | zero =>
    intro v st _ _ _ _ _ pc hpc
    rw [show goA g dg 0 v st = (st, []) from by rw [goA]] at hpc
    exact absurd hpc (List.not_mem_nil pc)
  | succ fuel ihf =>
    intro v st inv hv1 hv2 hnv hfuel pc hpc
    rw [goA_succ] at hpc
    rw [go_succ]
    have hpre_v0 : st.pre_label.getD v 0 = 0 := by
      by_contra hc
      exact hnv ((mem_labelSet n st.pre_label v).mpr ⟨hv1, hv2, hc⟩)
    obtain ⟨inv1, hset1⟩ := mark_inv g n m st inv v hv1 hv2 hnv
    have hvicc : v ∈ Finset.Icc 1 n := Finset.mem_Icc.mpr ⟨hv1, hv2⟩
    have hfuel1 : (Finset.Icc 1 n \
        labelSet n (st.pre_label.set v st.k)).card ≤ fuel := by
      have hsd : Finset.Icc 1 n \ labelSet n (st.pre_label.set v st.k) =
          (Finset.Icc 1 n \ labelSet n st.pre_label).erase v := by
        rw [hset1]
        ext x
        simp only [Finset.mem_sdiff, Finset.mem_insert, Finset.mem_erase]
        tauto
      rw [hsd, Finset.card_erase_of_mem (Finset.mem_sdiff.mpr ⟨hvicc, hnv⟩)]
      omega
    have hboundv : ∀ a ∈ outEdges dg v, 1 ≤ a ∧ a ≤ m := by
      intro a hamem
      rw [hout v] at hamem
      have := List.mem_range'_1.mp (List.mem_filter.mp hamem).1
      omega
    have hvpre1 : (st.pre_label.set v st.k).getD v 0 ≠ 0 := by
      rw [getD_set_self st.pre_label v st.k (by rw [inv.len_pre]; omega), inv.hk]
      omega
    have hlist := goList_post_of_go g dg n m hH fuel
      (go_post g dg n m hH hout fuel) (outEdges dg v)
      ⟨st.pre_label.set v st.k, st.post_label, st.k + 1, st.j⟩ inv1 hboundv hfuel1
    have harcs := goListA_arcs_of g dg n m hH hout fuel ihf v (outEdges dg v)
      ⟨st.pre_label.set v st.k, st.post_label, st.k + 1, st.j⟩ inv1 hv1 hv2
      hboundv hfuel1 hvpre1 pc hpc
    have hv_vis1 : v ∈ labelSet n (st.pre_label.set v st.k) := by
      rw [hset1]
      exact Finset.mem_insert_self v _
    have hv_nfin : (goList g dg fuel (outEdges dg v)
        ⟨st.pre_label.set v st.k, st.post_label, st.k + 1, st.j⟩).post_label.getD
          v 0 = 0 := by
      by_contra hc
      have hmem : v ∈ labelSet n (goList g dg fuel (outEdges dg v)
          ⟨st.pre_label.set v st.k, st.post_label, st.k + 1, st.j⟩).post_label :=
        (mem_labelSet _ _ _).mpr ⟨hv1, hv2, fun hz => hc hz⟩
      rw [hlist.new_fin] at hmem
      rcases Finset.mem_union.mp hmem with hc1 | hc2
      · exact hnv (inv.fin_sub hc1)
      · exact (Finset.mem_sdiff.mp hc2).2 hv_vis1
    have hlenp : v < (goList g dg fuel (outEdges dg v)
        ⟨st.pre_label.set v st.k, st.post_label, st.k + 1, st.j⟩).post_label.length := by
      rw [hlist.inv.len_post]
      omega
    rcases harcs with ⟨hpv, hc1, hc2, hvpre, hcpre, hlt, hcpost⟩ | harc
    · -- arc out of `v` itself: `v`'s post-label is assigned right now
      refine ⟨by omega, by rw [hpv]; exact hv2, hc1, hc2, ?_, hcpre, ?_, ?_, ?_, ?_⟩
      · show (goList g dg fuel (outEdges dg v)
          ⟨st.pre_label.set v st.k, st.post_label, st.k + 1, st.j⟩).pre_label.getD
            pc.1 0 ≠ 0
        rw [hpv]
        exact hvpre
      · show (goList g dg fuel (outEdges dg v) _).pre_label.getD pc.1 0 <
          (goList g dg fuel (outEdges dg v) _).pre_label.getD pc.2 0
        rw [hpv]
        exact hlt
      · show ((goList g dg fuel (outEdges dg v) _).post_label.set v
            (goList g dg fuel (outEdges dg v) _).j).getD pc.1 0 ≠ 0
        rw [hpv, getD_set_self _ v _ hlenp, hlist.inv.hj]
        omega
      · show ((goList g dg fuel (outEdges dg v) _).post_label.set v
            (goList g dg fuel (outEdges dg v) _).j).getD pc.2 0 ≠ 0
        have hne : pc.2 ≠ v := fun hc => by rw [hc, hv_nfin] at hcpost; exact hcpost rfl
        rw [getD_set_ne _ v pc.2 _ hne]
        exact hcpost
      · show ((goList g dg fuel (outEdges dg v) _).post_label.set v
            (goList g dg fuel (outEdges dg v) _).j).getD pc.2 0 <
          ((goList g dg fuel (outEdges dg v) _).post_label.set v
            (goList g dg fuel (outEdges dg v) _).j).getD pc.1 0
        have hne : pc.2 ≠ v := fun hc => by rw [hc, hv_nfin] at hcpost; exact hcpost rfl
        rw [hpv, getD_set_ne _ v pc.2 _ hne, getD_set_self _ v _ hlenp]
        exact hlist.inv.post_lt pc.2 ((mem_labelSet _ _ _).mpr ⟨hc1, hc2, hcpost⟩)
    · -- arc with both labels already assigned: the update at `v` is frozen
      refine ArcOK_mono n
        (goList g dg fuel (outEdges dg v)
          ⟨st.pre_label.set v st.k, st.post_label, st.k + 1, st.j⟩)
        _ pc.1 pc.2 (fun u _ => rfl) ?_ harc
      intro u hu
      have hne : u ≠ v := fun hc => by rw [hc, hv_nfin] at hu; exact hu rfl
      exact getD_set_ne _ v u _ hne

/-- C5: nesting property. The instrumented run `goA` computes the same
state as the run underlying `dfs` (first conjunct) while recording one arc
(v, w) exactly when `w` is first discovered by the recursive call made
while exploring `v` — so "w is visited as a descendant of v in the DFS
tree" is the transitive closure of the recorded arcs. Every such pair
satisfies `pre_label[v] < pre_label[w]` and `post_label[v] > post_label[w]`
in the returned DfsTime. -/
theorem dfs_nesting (g : EdgeList) (n m v0 : Nat) (h : Consistent g n m)
    (hv1 : 1 ≤ v0) (hv2 : v0 ≤ n) :
    (goA g (dicomp_incidence_list_construct g n m) n v0 (dfsInitState n)).1 =
      dfsRun g n m v0 ∧
    ∀ v w, Relation.TransGen
        (fun p c => (p, c) ∈
          (goA g (dicomp_incidence_list_construct g n m) n v0
            (dfsInitState n)).2) v w →
      (dfs g (dicomp_incidence_list_construct g n m) n v0).pre_label.getD v 0 <
        (dfs g (dicomp_incidence_list_construct g n m) n v0).pre_label.getD w 0 ∧
      (dfs g (dicomp_incidence_list_construct g n m) n v0).post_label.getD w 0 <
        (dfs g (dicomp_incidence_list_construct g n m) n v0).post_label.getD v 0 := by
  have hnv : v0 ∉ labelSet n (dfsInitState n).pre_label := by
    show v0 ∉ labelSet n (List.replicate (n + 1) 0)
    rw [labelSet_replicate]
    exact Finset.not_mem_empty v0
  have hcard : (Finset.Icc 1 n \ labelSet n (dfsInitState n).pre_label).card ≤ n := by
    show (Finset.Icc 1 n \ labelSet n (List.replicate (n + 1) 0)).card ≤ n
    rw [labelSet_replicate, Finset.sdiff_empty, Nat.card_Icc]
    omega
  have harcs := goA_arcs g _ n m h.2.2.2 (dicomp_outEdges g n m h) n v0
    (dfsInitState n) (init_inv g n m) hv1 hv2 hnv hcard
  refine ⟨goA_fst g _ n v0 (dfsInitState n), ?_⟩
  intro v w hvw
  induction hvw with
  | @single b harc =>
    obtain ⟨-, -, -, -, -, -, h7, -, -, h10⟩ := harcs (v, b) harc
    exact ⟨h7, h10⟩
  | @tail b c hab harc ih =>
    obtain ⟨-, -, -, -, -, -, h7, -, -, h10⟩ := harcs (b, c) harc
    exact ⟨lt_trans ih.1 h7, lt_trans h10 ih.2⟩

/-- Witness for C5 on the linear-chain test graph. -/
theorem dfs_nesting_witness :
    (Consistent lineGraph 3 2 ∧ 1 ≤ 1 ∧ 1 ≤ 3) ∧
      ((goA lineGraph (dicomp_incidence_list_construct lineGraph 3 2) 3 1
          (dfsInitState 3)).1 = dfsRun lineGraph 3 2 1 ∧
      ∀ v w, Relation.TransGen
          (fun p c => (p, c) ∈
            (goA lineGraph (dicomp_incidence_list_construct lineGraph 3 2) 3 1
              (dfsInitState 3)).2) v w →
        (dfs lineGraph (dicomp_incidence_list_construct lineGraph 3 2) 3
            1).pre_label.getD v 0 <
          (dfs lineGraph (dicomp_incidence_list_construct lineGraph 3 2) 3
            1).pre_label.getD w 0 ∧
        (dfs lineGraph (dicomp_incidence_list_construct lineGraph 3 2) 3
            1).post_label.getD w 0 <
          (dfs lineGraph (dicomp_incidence_list_construct lineGraph 3 2) 3
            1).post_label.getD v 0) :=
  ⟨⟨by decide, by decide, by decide⟩,
    dfs_nesting lineGraph 3 2 1 (by decide) (by decide) (by decide)⟩
